import Mathlib

/-!
# liboo symbol mangler (`src-cpp/mangle.c`)

A shallow embedding of the mangler and theorems about it.

Conventions of the embedding:

* a C string is the list of its bytes before the terminating NUL (`List Char`);
  `strcmp(a, b) == 0` is equality of lists and `strlen` is `List.length`;
* the compression table `ct[CT_SIZE]` together with `next_ct_entry` is the list of the
  stored names, oldest first, so `next_ct_entry` is the length of that list;
* an obstack under construction is the list of bytes grown so far;
* the scratch obstack of `mangle_array_type` is finished without a terminating NUL, so
  the C string `unsubstituted` is the spelling grown there followed by the bytes that
  happen to lie behind it in the chunk, up to the first zero byte. Those bytes are not
  determined by the program text; they are a parameter of the model, `scratch_tail`,
  given per call of `mangle_array_type` (by the element type and the state at entry);
* `mangle_buffer` is scratch storage that every path writes before it reads, so it is a
  local value of the function using it;
* a failed `assert` aborts the process: functions that may abort return `Except Fault`;
* string lengths are natural numbers (the casts of a length to `int` or `unsigned` are
  the identity on every string the intermediate representation holds).
-/

set_option autoImplicit false

namespace Mangle

/-- Reasons for which a call does not return: a failed `assert`, the iteration
budget of a modelled loop running out (shown below never to happen), or a call of
`panic`, which aborts. -/
inductive Fault where
  | assertion
  | fuel
  | panic
  deriving DecidableEq, Repr

/-- The type kinds the mangler distinguishes (`is_Primitive_type`, `is_Pointer_type`,
`is_Class_type`). `Primitive` carries the type link (`get_type_link`, `none` for NULL),
`Class` carries the class ident and whether the type is `get_glob_type()`.
`Other` is any kind for which the three predicates are all false. -/
inductive ir_type where
  | Primitive (link : Option (List Char))
  | Pointer (points_to : ir_type)
  | Class (ident : List Char) (is_glob : Bool)
  | Other
  deriving DecidableEq, Repr

/-- The declared type of an entity: a method type (`is_Method_type`) with its
parameter and result types, or any other type. -/
inductive entity_type where
  | Method (params : List ir_type) (ress : List ir_type)
  | Data (type : ir_type)
  deriving DecidableEq, Repr

/-- The entity accessors used by the mangler: `get_entity_owner`, `get_entity_type`,
`get_entity_name` and whether `get_entity_allocation` is `allocation_static`. -/
structure ir_entity where
  owner : ir_type
  type : entity_type
  name : List Char
  allocation_static : Bool
  deriving DecidableEq, Repr

/-- An entry of the entity-name substitution table. -/
structure st_entry where
  name : List Char
  mangled : List Char
  deriving DecidableEq, Repr

/-- The session state of the encoder: the compression table and the obstack the
encoder grows. -/
structure mstate where
  ct : List (List Char)
  obst : List Char
  deriving DecidableEq, Repr

def base36 : List Char := "0123456789ABCDEFGHIJKLMNOPQRSTUVWXYZ".toList

def CT_SIZE : Nat := 36

def MB_SIZE : Nat := 1024

/-- Body of `flush_ct`: every slot is released and `next_ct_entry` becomes 0. -/
def flush_ct (_ct : List (List Char)) : List (List Char) := []

/-- Loop of `find_in_ct`, started at index `i` on the entries from `i` on. -/
def find_in_ct_loop (name : List Char) : List (List Char) → Nat → Int
  | [], _ => -1
  | e :: rest, i => if e = name then (i : Int) else find_in_ct_loop name rest (i + 1)

def find_in_ct (ct : List (List Char)) (name : List Char) : Int :=
  find_in_ct_loop name ct 0

def insert_ct (ct : List (List Char)) (name : List Char) : Except Fault (List (List Char)) :=
  if ct.length < CT_SIZE then .ok (ct ++ [name]) else .error .assertion

/-- The byte `base36[i]`; index 36 is the terminating NUL of the literal. -/
def base36_at (i : Nat) : Char := base36.getD i (Char.ofNat 0)

def emit_substitution (m : Int) (obst : List Char) : List Char :=
  let obst := obst ++ ['S']
  let obst := if m > 0 then obst ++ [base36_at (m - 1).toNat] else obst
  obst ++ ['_']

/-- Output of `printf("%d", n)` for a non-negative `n`. -/
def printf_d (n : Nat) : List Char := Nat.toDigits 10 n

def mangle_primitive_type (type : ir_type) (obst : List Char) : Except Fault (List Char) :=
  match type with
  | .Primitive (some tag) => .ok (obst ++ tag)
  | _ => .error .assertion

/-- The `while (*p != '\0')` loop of `mangle_qualified_class_name`. `p` is the rest of
`string` from the cursor on, so `comp_end - string` is `string.length - comp_end.length`.
The first argument bounds the number of iterations. Returns `last_match` and the state. -/
def walk_components (string : List Char) :
    Nat → List Char → Int → mstate → Except Fault (Int × mstate)
  | _, [], last_match, s => .ok (last_match, s)
  | 0, _ :: _, _, _ => .error .fuel
  | fuel + 1, c :: cs, last_match, s =>
    let p := (c :: cs).dropWhile (fun x => x = '/')
    let l := (p.takeWhile (fun x => x ≠ '/')).length
    let comp_begin := p
    let comp_end := p.drop l
    let comp_end_idx := string.length - comp_end.length
    if comp_end_idx + 1 < MB_SIZE then
      let mangle_buffer := string.take comp_end_idx
      let m := find_in_ct s.ct mangle_buffer
      if m ≥ 0 then
        walk_components string fuel comp_end m s
      else
        match insert_ct s.ct mangle_buffer with
        | .error e => .error e
        | .ok ct =>
          let obst := if last_match ≥ 0 then emit_substitution last_match s.obst else s.obst
          let last_match := if last_match ≥ 0 then -1 else last_match
          let obst := obst ++ printf_d l ++ comp_begin.take l
          walk_components string fuel comp_end last_match ⟨ct, obst⟩
    else .error .assertion

/-- Returns `emitted_N` and the new state. -/
def mangle_qualified_class_name (class_type : ir_type) (is_pointer : Bool) (s : mstate) :
    Except Fault (Bool × mstate) :=
  match class_type with
  | .Class string is_glob =>
    if is_glob then .ok (false, s)
    else
      let slen := string.length
      let full_match := find_in_ct s.ct string
      if is_pointer ∧ ¬ (slen + 1 < MB_SIZE) then .error .assertion
      else
        let mangle_buffer := 'P' :: string
        let full_match_p := if is_pointer then find_in_ct s.ct mangle_buffer else -1
        if full_match_p ≥ 0 then
          .ok (false, ⟨s.ct, emit_substitution full_match_p s.obst⟩)
        else if full_match ≥ 0 then
          if is_pointer then
            match insert_ct s.ct mangle_buffer with
            | .error e => .error e
            | .ok ct => .ok (false, ⟨ct, emit_substitution full_match (s.obst ++ ['P'])⟩)
          else
            .ok (false, ⟨s.ct, emit_substitution full_match s.obst⟩)
        else
          let obst := if is_pointer then s.obst ++ ['P'] else s.obst
          let obst := obst ++ ['N']
          match walk_components string slen string (-1) ⟨s.ct, obst⟩ with
          | .error e => .error e
          | .ok (_, s1) =>
            if is_pointer then
              if find_in_ct s1.ct ('P' :: string) = -1 then
                match insert_ct s1.ct ('P' :: string) with
                | .error e => .error e
                | .ok ct => .ok (true, ⟨ct, s1.obst⟩)
              else .error .assertion
            else .ok (true, s1)
  | _ => .error .assertion

def mangle_type_without_substitition : ir_type → List Char → Except Fault (List Char)
  | .Primitive link, obst => mangle_primitive_type (.Primitive link) obst
  | .Pointer (.Class ident _), obst => .ok (obst ++ ['P'] ++ ident)
  | .Pointer pt, obst =>
    match mangle_type_without_substitition pt (obst ++ "JArray<".toList) with
    | .error e => .error e
    | .ok obst => .ok (obst ++ ['>'])
  | _, obst => .ok obst

/-- The bytes found behind the scratch spelling of a call of `mangle_array_type`, up to
the first zero byte: `obstack_finish` is reached without a terminating NUL having been
grown, and `strcmp` (in `find_in_ct`) and `strlen` (in `insert_ct`) read on to the first
zero byte. One list per call, named by the element type and the state at entry. -/
abbrev scratch_tail := ir_type → mstate → List Char

/-- The scratch tail of a run in which every scratch spelling happens to be followed by
a zero byte. -/
def terminated : scratch_tail := fun _ _ => []

/-- Body of `mangle_array_type`, with the recursive call `mangle_type(type, obst)`
passed as `mangle_type_rec` and the bytes behind the scratch spelling as `junk`. -/
def mangle_array_type_body (junk : List Char)
    (mangle_type_rec : mstate → Except Fault mstate)
    (type : ir_type) (s : mstate) : Except Fault mstate :=
  match mangle_type_without_substitition type "PJArray<".toList with
  | .error e => .error e
  | .ok u =>
    let unsubstituted := u ++ ['>'] ++ junk
    let full_match := find_in_ct s.ct unsubstituted
    if full_match ≥ 0 then
      .ok ⟨s.ct, emit_substitution full_match s.obst⟩
    else
      let obst := s.obst ++ ['P']
      let jarray_match := find_in_ct s.ct "JArray".toList
      let r : Except Fault mstate :=
        if jarray_match ≥ 0 then .ok ⟨s.ct, emit_substitution jarray_match obst⟩
        else
          match insert_ct s.ct "JArray".toList with
          | .error e => .error e
          | .ok ct => .ok ⟨ct, obst ++ "6JArray".toList⟩
      match r with
      | .error e => .error e
      | .ok s1 =>
        match mangle_type_rec ⟨s1.ct, s1.obst ++ ['I']⟩ with
        | .error e => .error e
        | .ok s2 =>
          let obst := s2.obst ++ ['E']
          match insert_ct s2.ct (unsubstituted.drop 1) with
          | .error e => .error e
          | .ok ct =>
            match insert_ct ct unsubstituted with
            | .error e => .error e
            | .ok ct => .ok ⟨ct, obst⟩

def mangle_type (tail : scratch_tail) : ir_type → mstate → Except Fault mstate
  | .Primitive link, s =>
    match mangle_primitive_type (.Primitive link) s.obst with
    | .error e => .error e
    | .ok obst => .ok ⟨s.ct, obst⟩
  | .Pointer (.Class ident is_glob), s =>
    match mangle_qualified_class_name (.Class ident is_glob) true s with
    | .error e => .error e
    | .ok (emitted_N, s1) =>
      if emitted_N then .ok ⟨s1.ct, s1.obst ++ ['E']⟩ else .ok s1
  | .Pointer pointsto, s =>
    mangle_array_type_body (tail pointsto s) (mangle_type tail pointsto) pointsto s
  | _, s => .ok s

def mangle_array_type (tail : scratch_tail) (type : ir_type) (s : mstate) :
    Except Fault mstate :=
  mangle_array_type_body (tail type s) (mangle_type tail type) type s

/-- Result of `cpset_find(&st, &ste)` for a key with the given name: the stored entry
that `string_cmp` reports equal to the key (the one whose name is the key's name), or
`none` for NULL. The set `st` is the list of its stored entries. -/
def cpset_find (st : List st_entry) (name : List Char) : Option st_entry :=
  st.find? (fun e => decide (e.name = name))

/-- The loop `for (int i = start; i < n_params; ++i)` of `mangle_entity_name`; the first
argument bounds the number of iterations. -/
def mangle_params_loop (tail : scratch_tail) (params : List ir_type) :
    Nat → Nat → mstate → Except Fault mstate
  | fuel, i, s =>
    if i < params.length then
      match fuel with
      | 0 => .error .fuel
      | fuel + 1 =>
        match mangle_type tail (params.getD i .Other) s with
        | .error e => .error e
        | .ok s1 => mangle_params_loop tail params fuel (i + 1) s1
    else .ok s

/-- The block `/* mangle parameter types */` of `mangle_entity_name`. -/
def mangle_parameter_types (tail : scratch_tail) (params : List ir_type)
    (allocation_static : Bool) (s : mstate) : Except Fault mstate :=
  let n_params : Int := params.length
  let start : Nat := if allocation_static then 0 else 1
  if n_params - start = 0 then
    .ok ⟨s.ct, s.obst ++ ['v']⟩
  else
    mangle_params_loop tail params params.length start s

/-- Returns the identifier and the compression table left behind. `st` is the
name-substitution table, `ct` the compression table before the call. -/
def mangle_entity_name (tail : scratch_tail) (st : List st_entry) (ct : List (List Char))
    (entity : ir_entity) : Except Fault (List Char × List (List Char)) :=
  let ct := flush_ct ct
  let owner := entity.owner
  let type := entity.type
  let obst := "_Z".toList
  match mangle_qualified_class_name owner false ⟨ct, obst⟩ with
  | .error e => .error e
  | .ok (_, s) =>
    let name_sig := entity.name
    let name_only := name_sig.takeWhile (fun c => c ≠ '.')
    let len := name_only.length
    let obst :=
      match cpset_find st name_only with
      | none => s.obst ++ printf_d len ++ name_only
      | some found_ste => s.obst ++ found_ste.mangled
    let obst := obst ++ ['E']
    match type with
    | .Data _ => .ok (obst, s.ct)
    | .Method params ress =>
      let r : Except Fault mstate :=
        if name_only ≠ "<init>".toList then
          let obst := obst ++ ['J']
          match ress with
          | [] => .ok ⟨s.ct, obst ++ ['v']⟩
          | [res] => mangle_type tail res ⟨s.ct, obst⟩
          | _ => .error .assertion
        else .ok ⟨s.ct, obst⟩
      match r with
      | .error e => .error e
      | .ok s1 =>
        match mangle_parameter_types tail params entity.allocation_static s1 with
        | .error e => .error e
        | .ok s2 => .ok (s2.obst, s2.ct)

/-- Returns the identifier and the compression table left behind. -/
def mangle_vtable_name (ct : List (List Char)) (clazz : ir_type) :
    Except Fault (List Char × List (List Char)) :=
  let ct := flush_ct ct
  let obst := "_ZTV".toList
  match mangle_qualified_class_name clazz false ⟨ct, obst⟩ with
  | .error e => .error e
  | .ok (emitted_N, s) =>
    if emitted_N then .ok (s.obst ++ ['E'], s.ct) else .error .assertion

/-- `string_cmp`: non-zero exactly when the two entries have the same name. -/
def string_cmp (entry1 entry2 : st_entry) : Bool :=
  decide (entry1.name = entry2.name)

/-- `string_hash`: `hash = 31 * hash + s[i]` over the bytes of the name, in `unsigned`
arithmetic (bytes below 128). -/
def string_hash (obj : st_entry) : Nat :=
  obj.name.foldl (fun hash c => (31 * hash + c.toNat) % 2 ^ 32) 0

/-- Result of `cpset_insert(&st, ste)` of libfirm for the set `st` built on `string_hash`
and `string_cmp`: when the set holds an element that `string_cmp` reports equal to `ste`,
that element is returned and the set is unchanged (first component `some`); otherwise
`ste` is added and is the element returned (first component `none`). -/
def cpset_insert (st : List st_entry) (ste : st_entry) : Option st_entry × List st_entry :=
  match st.find? (fun e => string_cmp e ste) with
  | some old => (some old, st)
  | none => (none, st ++ [ste])

/-- The set `st` after `cpset_init` in `mangle_init`. -/
def mangle_init_st : List st_entry := []

/-- Returns the name-substitution table after the call; `obj != ste` is the case in
which `cpset_insert` returned an element already in the set. -/
def mangle_add_name_substitution (st : List st_entry) (name mangled : List Char) :
    Except Fault (List st_entry) :=
  let ste : st_entry := ⟨name, mangled⟩
  match cpset_insert st ste with
  | (some _, _) => .error .panic
  | (none, st1) => .ok st1

deriving instance DecidableEq for Except

/-! ## Concrete inputs used by the theorems -/

/-- A class type that is not the global type, named by a slash-qualified name. -/
def class_named (name : String) : ir_type := .Class name.toList false

/-- The primitive type `int` after `mangle_set_primitive_type_name(int, "i")`. -/
def int_type : ir_type := .Primitive (some ['i'])

/-- The method `putDeclaredAnnotations` of `java/lang/ClassLoader` from the comment on
the compression table: `receiver` is the list of parameters before the declared ones
(empty for a static entity, the receiver for an instance entity). -/
def putDeclaredAnnotations (receiver : List ir_type) (is_static : Bool) : ir_entity :=
  { owner := class_named "java/lang/ClassLoader"
    type := .Method
      (receiver ++ [.Pointer (class_named "java/lang/Class"), int_type, int_type, int_type,
        .Pointer (.Pointer (class_named "java/lang/Object"))])
      [.Pointer (.Pointer (class_named "java/lang/Object"))]
    name := "putDeclaredAnnotations".toList
    allocation_static := is_static }

/-- The identifier expected for `putDeclaredAnnotations`. -/
def putDeclaredAnnotations_symbol : List Char :=
  "_ZN4java4lang11ClassLoader22putDeclaredAnnotationsEJP6JArrayIPNS0_6ObjectEEPNS0_5ClassEiiiS6_".toList

/-- The compression table expected after mangling `putDeclaredAnnotations`. -/
def putDeclaredAnnotations_table : List (List Char) :=
  ["java", "java/lang", "java/lang/ClassLoader", "JArray", "java/lang/Object",
   "Pjava/lang/Object", "JArray<Pjava/lang/Object>", "PJArray<Pjava/lang/Object>",
   "java/lang/Class", "Pjava/lang/Class"].map String.toList

/-! ## Vocabulary of the statements -/

/-- The slash-qualified name made of the given path components. -/
def qualified_name : List (List Char) → List Char
  | [] => []
  | [c] => c
  | c :: c' :: cs => c ++ '/' :: qualified_name (c' :: cs)

/-- A path component: at least one byte and no `/`. -/
def is_component (c : List Char) : Prop := c ≠ [] ∧ '/' ∉ c

/-- The encoding `<length><bytes>` of each component, in order. -/
def source_names (comps : List (List Char)) : List Char :=
  comps.flatMap (fun c => printf_d c.length ++ c)

/-- The names of the non-empty prefixes of a component list, shortest first. -/
def cumulative_prefixes (comps : List (List Char)) : List (List Char) :=
  comps.inits.tail.map qualified_name

/-- Every component preceded by a `/`. -/
def slash_tail (comps : List (List Char)) : List Char :=
  comps.flatMap (fun c => '/' :: c)

/-- The prefixes reached by appending the components one by one to `done`. -/
def prefixes_from (done : List Char) : List (List Char) → List (List Char)
  | [] => []
  | c :: cs => (done ++ '/' :: c) :: prefixes_from (done ++ '/' :: c) cs

instance : DecidablePred is_component := fun c => by
  unfold is_component
  infer_instance

/-- The number a digit string denotes (most significant digit first). -/
def decimal_value (ds : List Char) : Nat :=
  ds.foldl (fun acc d => 10 * acc + (d.toNat - 48)) 0

/-- The component does not begin with a decimal digit. -/
def no_leading_digit : List Char → Bool
  | [] => true
  | d :: _ => !d.isDigit

/-- The encoder applied to each type of a list in order, threading the session state. -/
def mangle_type_list (tail : scratch_tail) : List ir_type → mstate → Except Fault mstate
  | [], s => .ok s
  | t :: ts, s =>
    match mangle_type tail t s with
    | .error e => .error e
    | .ok s1 => mangle_type_list tail ts s1

/-- The spelling `mangle_array_type` grows on its scratch obstack for pointer-to-array
of an element type, given the unsubstituted spelling of the element type. -/
def array_spelling (element : List Char) : List Char :=
  "PJArray<".toList ++ element ++ ['>']

/-- The back-reference token for table index `i`. -/
def back_reference (i : Nat) : List Char := emit_substitution (i : Int) []

/-- One step of a mangle session: a returning call of one of the encoders (whatever
lies behind its scratch spellings), a returning `insert_ct` of any name (as the array
encoder does after its element type), or bytes grown on the output by a caller. -/
inductive session_step : mstate → mstate → Prop where
  | type (tail : scratch_tail) (t : ir_type) (s s1 : mstate) :
      mangle_type tail t s = .ok s1 → session_step s s1
  | array (tail : scratch_tail) (t : ir_type) (s s1 : mstate) :
      mangle_array_type tail t s = .ok s1 → session_step s s1
  | class_name (c : ir_type) (is_pointer n : Bool) (s s1 : mstate) :
      mangle_qualified_class_name c is_pointer s = .ok (n, s1) → session_step s s1
  | insert (s : mstate) (name : List Char) (ct1 : List (List Char)) :
      insert_ct s.ct name = .ok ct1 → session_step s ⟨ct1, s.obst⟩
  | grow (s : mstate) (bytes : List Char) : session_step s ⟨s.ct, s.obst ++ bytes⟩

/-- The session reaches the second state from the first by zero or more steps. -/
def session_reaches : mstate → mstate → Prop := Relation.ReflTransGen session_step

/-- A primitive type tag of 1015 bytes. -/
def long_tag : List Char := List.replicate 1015 'x'

/-- A class name of 1023 bytes that reads like the array spelling of `long_tag`. -/
def long_array_class_name : List Char := "JArray<".toList ++ long_tag ++ ['>']

/-- A static method `f` of class `a` taking two pointers to `a` and returning nothing. -/
def method_with_two_pointers_to_owner : ir_entity :=
  { owner := class_named "a"
    type := .Method [.Pointer (class_named "a"), .Pointer (class_named "a")] []
    name := "f".toList
    allocation_static := true }

/-- The encoding of a plain entity name: the spelling the registry holds for it when it
holds one, otherwise the decimal length of the name followed by the name. -/
def name_encoding (st : List st_entry) (plain : List Char) : List Char :=
  match cpset_find st plain with
  | some ste => ste.mangled
  | none => printf_d plain.length ++ plain

/-- The session state after `_Z`, the owner's qualified name on a reset table, and the
plain entity name closed by `E`. -/
def after_entity_name (st : List st_entry) (entity : ir_entity) : Except Fault mstate :=
  match mangle_qualified_class_name entity.owner false ⟨[], "_Z".toList⟩ with
  | .error f => .error f
  | .ok (_, s) =>
    .ok ⟨s.ct, s.obst ++ name_encoding st (entity.name.takeWhile (fun c => c ≠ '.')) ++ ['E']⟩

/-- The return-type segment of a method with the given plain name and result types:
nothing for `<init>`, otherwise `J` followed by `v` or by the single result type. -/
def return_segment (tail : scratch_tail) (plain : List Char) (ress : List ir_type)
    (s : mstate) : Except Fault mstate :=
  if plain = "<init>".toList then .ok s
  else
    match ress with
    | [] => .ok ⟨s.ct, s.obst ++ "Jv".toList⟩
    | [res] => mangle_type tail res ⟨s.ct, s.obst ++ ['J']⟩
    | _ => .error .assertion

/-- The parameter segment: `v` when no parameter remains after the receiver of an
instance entity is skipped, otherwise the remaining parameters encoded in order. -/
def parameter_segment (tail : scratch_tail) (params : List ir_type) (is_static : Bool)
    (s : mstate) : Except Fault mstate :=
  match params.drop (if is_static then 0 else 1) with
  | [] => .ok ⟨s.ct, s.obst ++ ['v']⟩
  | declared => mangle_type_list tail declared s

/-- An instance method `f` of class `A` whose method type has no parameter at all. -/
def instance_method_without_receiver : ir_entity :=
  { owner := class_named "A"
    type := .Method [] []
    name := "f".toList
    allocation_static := false }

/-- An instance method `f` of class `A` taking only its receiver. -/
def instance_method_of_receiver : ir_entity :=
  { owner := class_named "A"
    type := .Method [.Pointer (class_named "A")] []
    name := "f".toList
    allocation_static := false }

/-- The registry states a process can be in: the one `mangle_init` leaves, and those
reached from it by returning calls of `mangle_add_name_substitution`. -/
inductive registry_reachable : List st_entry → Prop where
  | init : registry_reachable mangle_init_st
  | add (st st1 : List st_entry) (name mangled : List Char) :
      registry_reachable st → mangle_add_name_substitution st name mangled = .ok st1 →
      registry_reachable st1

/-- A class name of 1022 bytes (one component). -/
def long_class_name : List Char := List.replicate 1022 'x'

/-- A static method `f` of class `Pfoo` taking a pointer to class `foo` and returning
nothing. -/
def method_of_Pfoo_taking_foo : ir_entity :=
  { owner := class_named "Pfoo"
    type := .Method [.Pointer (class_named "foo")] []
    name := "f".toList
    allocation_static := true }

/-- The global type (`get_glob_type()`). -/
def glob_type : ir_type := .Class "GlobalType".toList true

/-- A static method `main` owned by the global type, without parameters or result. -/
def global_main : ir_entity :=
  { owner := glob_type
    type := .Method [] []
    name := "main".toList
    allocation_static := true }

/-- No array type occurs in the type: every pointer points to a class. -/
def array_free : ir_type → Bool
  | .Pointer (.Class _ _) => true
  | .Pointer _ => false
  | _ => true

/-- No array type occurs in the signature of the entity. -/
def entity_array_free (entity : ir_entity) : Bool :=
  match entity.type with
  | .Data _ => true
  | .Method params ress => params.all array_free && ress.all array_free

/-- The scratch tail of a run in which every scratch spelling is followed by the given
stale bytes and then a zero byte. -/
def stale (bytes : List Char) : scratch_tail := fun _ _ => bytes

/-- The scratch tail of a run in which the scratch spelling is followed by a zero byte
in the calls of `mangle_array_type` entered with at most `n` table entries, and by the
given stale bytes in the calls entered with more. -/
def stale_after (n : Nat) (bytes : List Char) : scratch_tail :=
  fun _ s => if s.ct.length ≤ n then [] else bytes

/-- A static method `h` of class `A` taking an array of arrays of `int` and an array of
`int`, returning nothing. -/
def method_with_nested_array : ir_entity :=
  { owner := class_named "A"
    type := .Method [.Pointer (.Pointer int_type), .Pointer int_type] []
    name := "h".toList
    allocation_static := true }

/-- The state of the `putDeclaredAnnotations` session when the array encoder, working on
the result type, is about to encode its element type pointer-to-`java/lang/Object`. -/
def before_object : mstate :=
  ⟨putDeclaredAnnotations_table.take 4,
    "_ZN4java4lang11ClassLoader22putDeclaredAnnotationsEJP6JArrayI".toList⟩

/-- The state of that session when the element type has been encoded. -/
def after_object : mstate :=
  ⟨putDeclaredAnnotations_table.take 6,
    "_ZN4java4lang11ClassLoader22putDeclaredAnnotationsEJP6JArrayIPNS0_6ObjectE".toList⟩

/-- The state of that session when the array encoder has returned: it has grown `E` and
registered the array spelling and the pointer-to-array spelling. -/
def after_object_array : mstate :=
  ⟨putDeclaredAnnotations_table.take 8,
    "_ZN4java4lang11ClassLoader22putDeclaredAnnotationsEJP6JArrayIPNS0_6ObjectEE".toList⟩

/-- The state of the session of `method_with_nested_array` when the array encoder,
working on the first parameter, is about to encode its element type array of `int`. -/
def before_int_array : mstate :=
  ⟨["A", "JArray"].map String.toList, "_ZN1A1hEJvP6JArrayI".toList⟩

/-- The state of that session when the inner array of `int` has been encoded. -/
def after_int_array : mstate :=
  ⟨["A", "JArray", "JArray<i>", "PJArray<i>"].map String.toList,
    "_ZN1A1hEJvP6JArrayIPS0_IiE".toList⟩

/-- The state of that session when the first parameter has been encoded. -/
def after_nested_array : mstate :=
  ⟨["A", "JArray", "JArray<i>", "PJArray<i>", "JArray<JArray<i>>",
      "PJArray<JArray<i>>"].map String.toList,
    "_ZN1A1hEJvP6JArrayIPS0_IiEE".toList⟩

/-! ## Theorems -/

/-! ### The compression table -/

theorem find_in_ct_loop_split (name : List Char) (pre post : List (List Char)) (i : Nat)
    (h : name ∉ pre) :
    find_in_ct_loop name (pre ++ name :: post) i = ((i + pre.length : Nat) : Int) := by
  induction pre generalizing i with
  | nil => simp [find_in_ct_loop]
  | cons e rest ih =>
    have hne : e ≠ name := fun h' => h (by simp [h'])
    have hr : name ∉ rest := fun h' => h (List.mem_cons_of_mem _ h')
    show find_in_ct_loop name (e :: (rest ++ name :: post)) i = _
    rw [find_in_ct_loop, if_neg hne, ih (i + 1) hr, List.length_cons]
    congr 1
    omega

theorem find_in_ct_loop_of_not_mem (name : List Char) (ct : List (List Char)) (i : Nat)
    (h : name ∉ ct) : find_in_ct_loop name ct i = -1 := by
  induction ct generalizing i with
  | nil => simp [find_in_ct_loop]
  | cons e rest ih =>
    have hne : e ≠ name := fun h' => h (by simp [h'])
    have hr : name ∉ rest := fun h' => h (List.mem_cons_of_mem _ h')
    simp [find_in_ct_loop, hne, ih (i + 1) hr]

theorem find_in_ct_of_not_mem {ct : List (List Char)} {name : List Char} (h : name ∉ ct) :
    find_in_ct ct name = -1 :=
  find_in_ct_loop_of_not_mem name ct 0 h

theorem find_in_ct_split {name : List Char} {pre : List (List Char)} (post : List (List Char))
    (h : name ∉ pre) : find_in_ct (pre ++ name :: post) name = (pre.length : Int) := by
  have := find_in_ct_loop_split name pre post 0 h
  simpa [find_in_ct] using this

theorem exists_first_occurrence {name : List Char} {ct : List (List Char)} (h : name ∈ ct) :
    ∃ pre post, ct = pre ++ name :: post ∧ name ∉ pre := by
  induction ct with
  | nil => simp at h
  | cons e rest ih =>
    by_cases he : e = name
    · exact ⟨[], rest, by simp [he], by simp⟩
    · have hr : name ∈ rest := by
        rcases List.mem_cons.mp h with h' | h'
        · exact absurd h'.symm he
        · exact h'
      obtain ⟨pre, post, hct, hpre⟩ := ih hr
      refine ⟨e :: pre, post, by simp [hct], ?_⟩
      intro hm
      rcases List.mem_cons.mp hm with h' | h'
      · exact he h'.symm
      · exact hpre h'

theorem find_in_ct_nonneg_iff (ct : List (List Char)) (name : List Char) :
    find_in_ct ct name ≥ 0 ↔ name ∈ ct := by
  constructor
  · intro h
    by_contra hm
    rw [find_in_ct_of_not_mem hm] at h
    omega
  · intro h
    obtain ⟨pre, post, hct, hpre⟩ := exists_first_occurrence h
    rw [hct, find_in_ct_split post hpre]
    omega

theorem find_in_ct_eq_neg_one_iff (ct : List (List Char)) (name : List Char) :
    find_in_ct ct name = -1 ↔ name ∉ ct := by
  constructor
  · intro h hm
    have := (find_in_ct_nonneg_iff ct name).mpr hm
    omega
  · exact find_in_ct_of_not_mem

theorem find_in_ct_neg_one_or_nonneg (ct : List (List Char)) (name : List Char) :
    find_in_ct ct name = -1 ∨ find_in_ct ct name ≥ 0 := by
  by_cases h : name ∈ ct
  · exact Or.inr ((find_in_ct_nonneg_iff ct name).mpr h)
  · exact Or.inl (find_in_ct_of_not_mem h)

theorem find_in_ct_append_of_mem {ct : List (List Char)} {name : List Char} (h : name ∈ ct)
    (ext : List (List Char)) : find_in_ct (ct ++ ext) name = find_in_ct ct name := by
  obtain ⟨pre, post, hct, hpre⟩ := exists_first_occurrence h
  rw [hct, find_in_ct_split post hpre, List.append_assoc, List.cons_append,
    find_in_ct_split _ hpre]

theorem find_in_ct_append_self {ct : List (List Char)} {name : List Char} (h : name ∉ ct) :
    find_in_ct (ct ++ [name]) name = (ct.length : Int) :=
  find_in_ct_split [] h

theorem find_in_ct_lt_length {ct : List (List Char)} {name : List Char} (h : name ∈ ct) :
    find_in_ct ct name < (ct.length : Int) := by
  obtain ⟨pre, post, hct, hpre⟩ := exists_first_occurrence h
  rw [hct, find_in_ct_split post hpre]
  simp only [List.length_append, List.length_cons]
  omega

theorem insert_ct_eq_ok {ct : List (List Char)} (name : List Char) (h : ct.length < 36) :
    insert_ct ct name = .ok (ct ++ [name]) := by
  simp [insert_ct, CT_SIZE, h]

theorem insert_ct_ok_iff {ct ct1 : List (List Char)} {name : List Char} :
    insert_ct ct name = .ok ct1 ↔ ct.length < 36 ∧ ct1 = ct ++ [name] := by
  unfold insert_ct CT_SIZE
  split <;> simp_all [eq_comm]

/-! ### The component walk on a well-formed name -/

theorem walk_components_step (string : List Char) (fuel : Nat) (p : List Char) (lm : Int)
    (s : mstate) (hp : p ≠ []) :
    walk_components string (fuel + 1) p lm s =
      if string.length - ((p.dropWhile (fun x => x = '/')).drop
            ((p.dropWhile (fun x => x = '/')).takeWhile (fun x => x ≠ '/')).length).length + 1
          < MB_SIZE then
        if find_in_ct s.ct (string.take (string.length - ((p.dropWhile (fun x => x = '/')).drop
            ((p.dropWhile (fun x => x = '/')).takeWhile (fun x => x ≠ '/')).length).length)) ≥ 0
        then
          walk_components string fuel ((p.dropWhile (fun x => x = '/')).drop
            ((p.dropWhile (fun x => x = '/')).takeWhile (fun x => x ≠ '/')).length)
            (find_in_ct s.ct (string.take (string.length -
              ((p.dropWhile (fun x => x = '/')).drop
                ((p.dropWhile (fun x => x = '/')).takeWhile (fun x => x ≠ '/')).length).length)))
            s
        else
          match insert_ct s.ct (string.take (string.length -
              ((p.dropWhile (fun x => x = '/')).drop
                ((p.dropWhile (fun x => x = '/')).takeWhile (fun x => x ≠ '/')).length).length))
          with
          | .error e => .error e
          | .ok ct =>
            walk_components string fuel ((p.dropWhile (fun x => x = '/')).drop
              ((p.dropWhile (fun x => x = '/')).takeWhile (fun x => x ≠ '/')).length)
              (if lm ≥ 0 then -1 else lm)
              ⟨ct, (if lm ≥ 0 then emit_substitution lm s.obst else s.obst)
                ++ printf_d ((p.dropWhile (fun x => x = '/')).takeWhile
                    (fun x => x ≠ '/')).length
                ++ (p.dropWhile (fun x => x = '/')).take
                    ((p.dropWhile (fun x => x = '/')).takeWhile (fun x => x ≠ '/')).length⟩
      else .error .assertion := by
  cases p with
  | nil => exact absurd rfl hp
  | cons c cs => rfl

theorem dropWhile_slash_component (c rest : List Char) (hc : is_component c) :
    (c ++ rest).dropWhile (fun x => x = '/') = c ++ rest := by
  obtain ⟨hne, hs⟩ := hc
  cases c with
  | nil => exact absurd rfl hne
  | cons a as =>
    have : a ≠ '/' := fun h => hs (by simp [h])
    simp [List.dropWhile, this]

theorem takeWhile_not_slash (c rest : List Char) (hs : '/' ∉ c)
    (hrest : rest = [] ∨ ∃ r, rest = '/' :: r) :
    (c ++ rest).takeWhile (fun x => x ≠ '/') = c := by
  induction c with
  | nil =>
    rcases hrest with h | ⟨r, h⟩ <;> subst h <;> simp [List.takeWhile]
  | cons a as ih =>
    have ha : a ≠ '/' := fun h => hs (by simp [h])
    have has : '/' ∉ as := fun h => hs (List.mem_cons_of_mem _ h)
    have := ih has
    simpa [List.takeWhile, ha] using this

theorem slash_tail_cons (c : List Char) (cs : List (List Char)) :
    slash_tail (c :: cs) = '/' :: c ++ slash_tail cs := by
  simp [slash_tail]

theorem slash_tail_shape (cs : List (List Char)) :
    slash_tail cs = [] ∨ ∃ r, slash_tail cs = '/' :: r := by
  cases cs with
  | nil => left; rfl
  | cons c cs => right; exact ⟨c ++ slash_tail cs, by simp [slash_tail]⟩

theorem dropWhile_slashes (sep c rest : List Char) (hsep : ∀ x ∈ sep, x = '/')
    (hc : is_component c) :
    (sep ++ c ++ rest).dropWhile (fun x => x = '/') = c ++ rest := by
  induction sep with
  | nil => simpa using dropWhile_slash_component c rest hc
  | cons a as ih =>
    have ha : a = '/' := hsep a (by simp)
    have has : ∀ x ∈ as, x = '/' := fun x hx => hsep x (List.mem_cons_of_mem _ hx)
    have := ih has
    simpa [List.dropWhile, ha] using this

/-- One iteration of the walk on a component whose cumulative prefix is not in the
table: the prefix is registered and the component is emitted as `<length><bytes>`. -/
theorem walk_components_fresh_step (done sep c rest : List Char) (fuel : Nat) (s : mstate)
    (hsep : ∀ x ∈ sep, x = '/') (hc : is_component c)
    (hrest : rest = [] ∨ ∃ r, rest = '/' :: r) (hnew : done ++ sep ++ c ∉ s.ct) :
    walk_components (done ++ sep ++ c ++ rest) (fuel + 1) (sep ++ c ++ rest) (-1) s =
      if (done ++ sep ++ c).length + 1 < 1024 then
        match insert_ct s.ct (done ++ sep ++ c) with
        | .error e => .error e
        | .ok ct =>
          walk_components (done ++ sep ++ c ++ rest) fuel rest (-1)
            ⟨ct, s.obst ++ printf_d c.length ++ c⟩
      else .error .assertion := by
  have hp : sep ++ c ++ rest ≠ [] := by
    have := hc.1
    simp [this]
  rw [walk_components_step _ _ _ _ _ hp, dropWhile_slashes sep c rest hsep hc,
    takeWhile_not_slash c rest hc.2 hrest]
  have hdrop : (c ++ rest).drop c.length = rest := by simp
  have htake : (c ++ rest).take c.length = c := by simp
  have hlen : (done ++ sep ++ c ++ rest).length - rest.length = (done ++ sep ++ c).length := by
    simp only [List.length_append]
    omega
  have hbuf : (done ++ sep ++ c ++ rest).take (done ++ sep ++ c).length = done ++ sep ++ c := by
    rw [List.take_left']
    rfl
  rw [hdrop, htake, hlen, hbuf]
  have hf : ¬ (find_in_ct s.ct (done ++ sep ++ c) ≥ 0) := by
    rw [find_in_ct_of_not_mem hnew]
    decide
  simp only [MB_SIZE, hf, if_false]
  have hneg : ¬ ((-1 : Int) ≥ 0) := by decide
  simp only [hneg, if_false]

theorem length_lt_of_mem_prefixes_from (done : List Char) (cs : List (List Char))
    (e : List Char) (he : e ∈ prefixes_from done cs) : done.length < e.length := by
  induction cs generalizing done with
  | nil => simp [prefixes_from] at he
  | cons c cs ih =>
    simp only [prefixes_from, List.mem_cons] at he
    rcases he with h | h
    · subst h
      simp
    · have := ih _ h
      simp only [List.length_append, List.length_cons] at this
      omega

theorem walk_components_nil (string : List Char) (fuel : Nat) (lm : Int) (s : mstate) :
    walk_components string fuel [] lm s = .ok (lm, s) := by
  cases fuel <;> rfl

theorem insert_ct_eq_error {ct : List (List Char)} (name : List Char) (h : ¬ ct.length < 36) :
    insert_ct ct name = .error .assertion := by
  simp [insert_ct, CT_SIZE, h]

theorem prefixes_from_cons (done c : List Char) (cs : List (List Char)) :
    prefixes_from done (c :: cs)
      = (done ++ ['/'] ++ c) :: prefixes_from (done ++ ['/'] ++ c) cs := by
  simp [prefixes_from]

theorem source_names_cons (c : List Char) (cs : List (List Char)) :
    source_names (c :: cs) = printf_d c.length ++ c ++ source_names cs := by
  simp [source_names]

/-- The walk over the remaining components of a well-formed name whose cumulative
prefixes are all new: it returns exactly when the name fits the buffer and the
prefixes fit the table, and then registers every prefix and emits every component. -/
theorem walk_components_fresh (cs : List (List Char)) (hcs : cs ≠ []) :
    ∀ (done : List Char) (s : mstate) (fuel : Nat),
      (∀ c ∈ cs, is_component c) → (slash_tail cs).length ≤ fuel →
      (∀ e ∈ prefixes_from done cs, e ∉ s.ct) →
      walk_components (done ++ slash_tail cs) fuel (slash_tail cs) (-1) s =
        if (done ++ slash_tail cs).length + 1 < 1024 ∧ s.ct.length + cs.length ≤ 36 then
          .ok (-1, ⟨s.ct ++ prefixes_from done cs, s.obst ++ source_names cs⟩)
        else .error .assertion := by
  induction cs with
  | nil => exact absurd rfl hcs
  | cons c cs ih =>
    intro done s fuel hwf hfuel hnew
    have hc : is_component c := hwf c (by simp)
    have hwf' : ∀ c' ∈ cs, is_component c' := fun c' h => hwf c' (List.mem_cons_of_mem _ h)
    have hnew0 : done ++ ['/'] ++ c ∉ s.ct := by
      apply hnew
      simp [prefixes_from]
    rw [slash_tail_cons] at hfuel
    obtain ⟨fuel, rfl⟩ : ∃ k, fuel = k + 1 := by
      refine ⟨fuel - 1, ?_⟩
      simp only [List.length_cons, List.length_append] at hfuel
      omega
    have hfuel' : (slash_tail cs).length ≤ fuel := by
      simp only [List.length_cons, List.length_append] at hfuel
      omega
    have hstr : done ++ slash_tail (c :: cs) = done ++ ['/'] ++ c ++ slash_tail cs := by
      simp [slash_tail_cons]
    have hp : slash_tail (c :: cs) = ['/'] ++ c ++ slash_tail cs := by
      simp [slash_tail_cons]
    rw [hstr, hp, walk_components_fresh_step done ['/'] c (slash_tail cs) fuel s
      (by simp) hc (slash_tail_shape cs) hnew0, prefixes_from_cons, source_names_cons]
    have hlen : (done ++ ['/'] ++ c).length ≤ (done ++ ['/'] ++ c ++ slash_tail cs).length := by
      simp only [List.length_append]
      omega
    by_cases h1 : (done ++ ['/'] ++ c).length + 1 < 1024
    · rw [if_pos h1]
      by_cases h2 : s.ct.length < 36
      · rw [insert_ct_eq_ok _ h2]
        simp only
        by_cases hcs' : cs = []
        · subst hcs'
          have hst : slash_tail [] = [] := rfl
          have hpf : prefixes_from (done ++ ['/'] ++ c) [] = [] := rfl
          have hsn : source_names [] = [] := rfl
          have hcond : (done ++ ['/'] ++ c).length + 1 < 1024 ∧ s.ct.length + [c].length ≤ 36 :=
            ⟨h1, by simp only [List.length_singleton]; omega⟩
          rw [hst, walk_components_nil, hpf, hsn, List.append_nil, List.append_nil, if_pos hcond]
          simp
        · have hnew' : ∀ e ∈ prefixes_from (done ++ ['/'] ++ c) cs,
              e ∉ (⟨s.ct ++ [done ++ ['/'] ++ c], s.obst ++ printf_d c.length ++ c⟩ : mstate).ct := by
            intro e he hmem
            simp only [List.mem_append, List.mem_singleton] at hmem
            rcases hmem with hm | hm
            · exact hnew e (by
                rw [prefixes_from_cons]
                exact List.mem_cons_of_mem _ he) hm
            · have := length_lt_of_mem_prefixes_from _ _ _ he
              rw [hm] at this
              exact lt_irrefl _ this
          rw [ih hcs' (done ++ ['/'] ++ c) _ fuel hwf' hfuel' hnew']
          by_cases h3 : (done ++ ['/'] ++ c ++ slash_tail cs).length + 1 < 1024
              ∧ s.ct.length + (c :: cs).length ≤ 36
          · have h4 : (done ++ ['/'] ++ c ++ slash_tail cs).length + 1 < 1024
                ∧ (s.ct ++ [done ++ ['/'] ++ c]).length + cs.length ≤ 36 := by
              refine ⟨h3.1, ?_⟩
              have := h3.2
              simp only [List.length_append, List.length_cons, List.length_nil] at this ⊢
              omega
            rw [if_pos h3, if_pos h4]
            simp
          · have h4 : ¬ ((done ++ ['/'] ++ c ++ slash_tail cs).length + 1 < 1024
                ∧ (s.ct ++ [done ++ ['/'] ++ c]).length + cs.length ≤ 36) := by
              intro h
              apply h3
              refine ⟨h.1, ?_⟩
              have := h.2
              simp only [List.length_append, List.length_cons, List.length_nil] at this ⊢
              omega
            rw [if_neg h3, if_neg h4]
      · rw [insert_ct_eq_error _ h2]
        simp only
        rw [if_neg]
        intro h
        have := h.2
        simp only [List.length_cons] at this
        omega
    · rw [if_neg h1, if_neg]
      intro h
      exact h1 (lt_of_le_of_lt (Nat.succ_le_succ hlen) h.1)

theorem qualified_name_cons (c : List Char) (cs : List (List Char)) :
    qualified_name (c :: cs) = c ++ slash_tail cs := by
  induction cs generalizing c with
  | nil => simp [qualified_name, slash_tail]
  | cons c' cs ih => simp [qualified_name, ih c', slash_tail_cons]

theorem inits_eq_nil_cons_tail (cs : List (List Char)) : cs.inits = [] :: cs.inits.tail := by
  cases cs <;> simp [List.inits]

theorem prefixes_from_eq_map (cs : List (List Char)) (done : List Char) :
    prefixes_from done cs = cs.inits.tail.map (fun l => done ++ slash_tail l) := by
  induction cs generalizing done with
  | nil => simp [prefixes_from]
  | cons c cs ih =>
    rw [prefixes_from_cons, ih, List.inits_cons, List.tail_cons, List.map_map]
    conv_rhs => rw [inits_eq_nil_cons_tail cs]
    simp [slash_tail, Function.comp_def]

theorem cumulative_prefixes_cons (c : List Char) (cs : List (List Char)) :
    cumulative_prefixes (c :: cs) = c :: prefixes_from c cs := by
  rw [cumulative_prefixes, prefixes_from_eq_map, List.inits_cons, List.tail_cons, List.map_map]
  conv_lhs => rw [inits_eq_nil_cons_tail cs]
  simp [qualified_name_cons, slash_tail, Function.comp_def]

/-- The qualified-name encoder on a well-formed name and an empty table. -/
theorem mangle_qualified_class_name_fresh (comps : List (List Char))
    (hwf : ∀ c ∈ comps, is_component c) (o : List Char) :
    mangle_qualified_class_name (.Class (qualified_name comps) false) false ⟨[], o⟩ =
      if (qualified_name comps).length < 1023 ∧ comps.length ≤ 36 then
        .ok (true, ⟨cumulative_prefixes comps, o ++ 'N' :: source_names comps⟩)
      else .error .assertion := by
  have hneg : ¬ ((-1 : Int) ≥ 0) := by decide
  cases comps with
  | nil =>
    simp [mangle_qualified_class_name, qualified_name, find_in_ct, find_in_ct_loop,
      walk_components, cumulative_prefixes, source_names]
  | cons c cs =>
    have hc : is_component c := hwf c (by simp)
    have hwf' : ∀ c' ∈ cs, is_component c' := fun c' h => hwf c' (List.mem_cons_of_mem _ h)
    have hfm : find_in_ct [] (qualified_name (c :: cs)) = -1 := rfl
    simp only [mangle_qualified_class_name, hfm, hneg, if_false, Bool.false_eq_true,
      false_and]
    rw [qualified_name_cons, cumulative_prefixes_cons, source_names_cons]
    obtain ⟨k, hk⟩ : ∃ k, (c ++ slash_tail cs).length = k + 1 := by
      refine ⟨(c ++ slash_tail cs).length - 1, ?_⟩
      have := List.length_pos.mpr hc.1
      simp only [List.length_append]
      omega
    have hstep := walk_components_fresh_step [] [] c (slash_tail cs) k ⟨[], o ++ ['N']⟩
      (by simp) hc (slash_tail_shape cs) (by simp)
    simp only [List.nil_append] at hstep
    rw [← hk] at hstep
    rw [hstep]
    by_cases h1 : c.length + 1 < 1024
    · rw [if_pos h1, insert_ct_eq_ok _ (by simp)]
      simp only
      by_cases hcs : cs = []
      · subst hcs
        have hst : slash_tail [] = [] := rfl
        have hcond : (c ++ slash_tail []).length < 1023 ∧ [c].length ≤ 36 := by
          rw [hst]
          simp only [List.append_nil, List.length_singleton]
          omega
        rw [if_pos hcond, hst, walk_components_nil]
        simp [prefixes_from, source_names]
      · have hfuel : (slash_tail cs).length ≤ k := by
          simp only [List.length_append] at hk
          have := List.length_pos.mpr hc.1
          omega
        have hnew : ∀ e ∈ prefixes_from c cs,
            e ∉ (⟨[] ++ [c], o ++ ['N'] ++ printf_d c.length ++ c⟩ : mstate).ct := by
          intro e he hmem
          simp only [List.nil_append, List.mem_singleton] at hmem
          have := length_lt_of_mem_prefixes_from _ _ _ he
          rw [hmem] at this
          exact lt_irrefl _ this
        rw [walk_components_fresh cs hcs c _ k hwf' hfuel hnew]
        by_cases h3 : (c ++ slash_tail cs).length < 1023 ∧ (c :: cs).length ≤ 36
        · have h4 : (c ++ slash_tail cs).length + 1 < 1024
              ∧ ([] ++ [c] : List (List Char)).length + cs.length ≤ 36 := by
            have h5 := h3.2
            have h6 := h3.1
            simp at h5 h6 ⊢
            omega
          rw [if_pos h3, if_pos h4]
          simp
        · have h4 : ¬ ((c ++ slash_tail cs).length + 1 < 1024
              ∧ ([] ++ [c] : List (List Char)).length + cs.length ≤ 36) := by
            intro h
            apply h3
            have h5 := h.2
            have h6 := h.1
            simp at h5 h6 ⊢
            omega
          rw [if_neg h3, if_neg h4]
    · rw [if_neg h1, if_neg]
      intro h
      have := h.1
      simp only [List.length_append] at this
      omega

/-- The vtable mangler on a well-formed class name returns exactly when the name is
shorter than 1023 bytes and has at most 36 components. -/
theorem mangle_vtable_name_components (ct : List (List Char)) (comps : List (List Char))
    (hwf : ∀ c ∈ comps, is_component c) :
    mangle_vtable_name ct (.Class (qualified_name comps) false) =
      if (qualified_name comps).length < 1023 ∧ comps.length ≤ 36 then
        .ok ("_ZTV".toList ++ 'N' :: source_names comps ++ ['E'], cumulative_prefixes comps)
      else .error .assertion := by
  unfold mangle_vtable_name flush_ct
  simp only
  rw [mangle_qualified_class_name_fresh comps hwf]
  by_cases h : (qualified_name comps).length < 1023 ∧ comps.length ≤ 36
  · rw [if_pos h, if_pos h]
    simp
  · rw [if_neg h, if_neg h]

/-! ### Decimal lengths -/

theorem digitChar_value (k : Nat) (hk : k < 10) : (Nat.digitChar k).toNat - 48 = k := by
  interval_cases k <;> rfl

theorem digitChar_isDigit (k : Nat) (hk : k < 10) : (Nat.digitChar k).isDigit = true := by
  interval_cases k <;> rfl

theorem foldl_toDigitsCore (fuel n : Nat) (ds : List Char) (h : n < fuel) :
    (Nat.toDigitsCore 10 fuel n ds).foldl (fun acc d => 10 * acc + (d.toNat - 48)) 0
      = ds.foldl (fun acc d => 10 * acc + (d.toNat - 48)) n := by
  induction fuel generalizing n ds with
  | zero => omega
  | succ fuel ih =>
    rw [Nat.toDigitsCore]
    split
    · rename_i h0
      have hn : n < 10 := by
        by_contra hge
        have : 1 ≤ n / 10 := (Nat.le_div_iff_mul_le (by decide)).mpr (by omega)
        omega
      simp only [List.foldl_cons, Nat.mul_zero, Nat.zero_add]
      rw [digitChar_value _ (Nat.mod_lt _ (by decide)), Nat.mod_eq_of_lt hn]
    · rename_i h0
      have hlt : n / 10 < fuel := by
        have : n / 10 < n := Nat.div_lt_self (by
          by_contra hz
          have : n = 0 := by omega
          simp [this] at h0) (by decide)
        omega
      rw [ih (n / 10) _ hlt, List.foldl_cons, digitChar_value _ (Nat.mod_lt _ (by decide))]
      congr 1
      omega

theorem decimal_value_printf_d (n : Nat) : decimal_value (printf_d n) = n := by
  unfold decimal_value printf_d Nat.toDigits
  rw [foldl_toDigitsCore _ _ _ (Nat.lt_succ_self n)]
  rfl

theorem printf_d_injective {m n : Nat} (h : printf_d m = printf_d n) : m = n := by
  have := congrArg decimal_value h
  rwa [decimal_value_printf_d, decimal_value_printf_d] at this

theorem toDigitsCore_digits (fuel n : Nat) (ds : List Char)
    (hds : ∀ d ∈ ds, d.isDigit = true) :
    ∀ d ∈ Nat.toDigitsCore 10 fuel n ds, d.isDigit = true := by
  induction fuel generalizing n ds with
  | zero => simpa [Nat.toDigitsCore] using hds
  | succ fuel ih =>
    have hcons : ∀ d ∈ Nat.digitChar (n % 10) :: ds, d.isDigit = true := by
      intro d hd
      rcases List.mem_cons.mp hd with h | h
      · rw [h]
        exact digitChar_isDigit _ (Nat.mod_lt _ (by decide))
      · exact hds d h
    rw [Nat.toDigitsCore]
    split
    · exact hcons
    · exact ih _ _ hcons

theorem printf_d_digits (n : Nat) : ∀ d ∈ printf_d n, d.isDigit = true :=
  toDigitsCore_digits _ _ _ (by simp)

theorem toDigitsCore_ne_nil (fuel n : Nat) (ds : List Char) (h : 0 < fuel) :
    Nat.toDigitsCore 10 fuel n ds ≠ [] := by
  induction fuel generalizing n ds with
  | zero => omega
  | succ fuel ih =>
    rw [Nat.toDigitsCore]
    split
    · simp
    · cases fuel with
      | zero => simp [Nat.toDigitsCore]
      | succ k => exact ih _ _ (Nat.succ_pos k)

theorem printf_d_ne_nil (n : Nat) : printf_d n ≠ [] :=
  toDigitsCore_ne_nil _ _ _ (Nat.succ_pos n)

/-! ### Unique decoding of `<length><bytes>` sequences -/

theorem digits_prefix_unique (d1 d2 a b : List Char)
    (h1 : ∀ d ∈ d1, d.isDigit = true) (h2 : ∀ d ∈ d2, d.isDigit = true)
    (ha : ∀ x ∈ a.head?, x.isDigit = false) (hb : ∀ x ∈ b.head?, x.isDigit = false)
    (hane : a ≠ []) (hbne : b ≠ []) (h : d1 ++ a = d2 ++ b) : d1 = d2 ∧ a = b := by
  induction d1 generalizing d2 with
  | nil =>
    cases d2 with
    | nil => exact ⟨rfl, by simpa using h⟩
    | cons y ys =>
      exfalso
      cases a with
      | nil => exact hane rfl
      | cons x xs =>
        simp only [List.nil_append, List.cons_append, List.cons.injEq] at h
        have hx := ha x (by simp)
        have hy := h2 y (by simp)
        rw [h.1, hy] at hx
        exact Bool.noConfusion hx
  | cons x xs ih =>
    cases d2 with
    | nil =>
      exfalso
      cases b with
      | nil => exact hbne rfl
      | cons y ys =>
        simp only [List.nil_append, List.cons_append, List.cons.injEq] at h
        have hy := hb y (by simp)
        have hx := h1 x (by simp)
        rw [← h.1, hx] at hy
        exact Bool.noConfusion hy
    | cons y ys =>
      simp only [List.cons_append, List.cons.injEq] at h
      obtain ⟨hd, hrest⟩ := ih ys (fun d hd => h1 d (List.mem_cons_of_mem _ hd))
        (fun d hd => h2 d (List.mem_cons_of_mem _ hd)) h.2
      exact ⟨by rw [h.1, hd], hrest⟩

theorem head_append_of_no_leading_digit (c r : List Char) (hne : c ≠ [])
    (hd : no_leading_digit c = true) : ∀ x ∈ (c ++ r).head?, x.isDigit = false := by
  cases c with
  | nil => exact absurd rfl hne
  | cons a as =>
    intro x hx
    simp only [List.cons_append, List.head?_cons, Option.mem_def, Option.some.injEq] at hx
    subst hx
    simpa [no_leading_digit] using hd

/-- A sequence of `<length><bytes>` names closed by `E` determines its components when
no component is empty or begins with a digit. -/
theorem source_names_injective (comps1 : List (List Char)) :
    ∀ comps2 : List (List Char),
      (∀ c ∈ comps1, c ≠ [] ∧ no_leading_digit c = true) →
      (∀ c ∈ comps2, c ≠ [] ∧ no_leading_digit c = true) →
      source_names comps1 ++ ['E'] = source_names comps2 ++ ['E'] → comps1 = comps2 := by
  have hE : ∀ x ∈ (['E'] : List Char).head?, x.isDigit = false := by
    intro x hx
    simp only [List.head?_cons, Option.mem_def, Option.some.injEq] at hx
    subst hx
    rfl
  induction comps1 with
  | nil =>
    intro comps2 _ h2 h
    cases comps2 with
    | nil => rfl
    | cons c cs =>
      exfalso
      have hc := h2 c (by simp)
      rw [source_names_cons, List.append_assoc, List.append_assoc] at h
      have := digits_prefix_unique [] (printf_d c.length) ['E'] (c ++ (source_names cs ++ ['E']))
        (by simp) (printf_d_digits _) hE
        (head_append_of_no_leading_digit c _ hc.1 hc.2) (by simp) (by simp [hc.1])
        (by simpa [source_names] using h)
      exact printf_d_ne_nil _ this.1.symm
  | cons c1 cs1 ih =>
    intro comps2 h1 h2 h
    have hc1 := h1 c1 (by simp)
    cases comps2 with
    | nil =>
      exfalso
      rw [source_names_cons, List.append_assoc, List.append_assoc] at h
      have := digits_prefix_unique (printf_d c1.length) [] (c1 ++ (source_names cs1 ++ ['E']))
        ['E'] (printf_d_digits _) (by simp)
        (head_append_of_no_leading_digit c1 _ hc1.1 hc1.2) hE (by simp [hc1.1]) (by simp)
        (by simpa [source_names] using h)
      exact printf_d_ne_nil _ this.1
    | cons c2 cs2 =>
      have hc2 := h2 c2 (by simp)
      rw [source_names_cons, source_names_cons, List.append_assoc, List.append_assoc,
        List.append_assoc, List.append_assoc] at h
      obtain ⟨hd, hrest⟩ := digits_prefix_unique (printf_d c1.length) (printf_d c2.length)
        (c1 ++ (source_names cs1 ++ ['E'])) (c2 ++ (source_names cs2 ++ ['E']))
        (printf_d_digits _) (printf_d_digits _)
        (head_append_of_no_leading_digit c1 _ hc1.1 hc1.2)
        (head_append_of_no_leading_digit c2 _ hc2.1 hc2.2) (by simp [hc1.1]) (by simp [hc2.1]) h
      have hlen : c1.length = c2.length := printf_d_injective hd
      obtain ⟨hc, hr⟩ := List.append_inj hrest hlen
      rw [hc, ih cs2 (fun c hc' => h1 c (List.mem_cons_of_mem _ hc'))
        (fun c hc' => h2 c (List.mem_cons_of_mem _ hc')) hr]

/-! ### The parameter loop -/

/-- The parameter loop encodes the parameters from index `i` on, in order, and its
iteration budget is never exhausted. -/
theorem mangle_params_loop_eq {tail : scratch_tail} (params : List ir_type) :
    ∀ (fuel i : Nat) (s : mstate), params.length - i ≤ fuel →
      mangle_params_loop tail params fuel i s = mangle_type_list tail (params.drop i) s := by
  intro fuel
  induction fuel with
  | zero =>
    intro i s h
    have hi : ¬ i < params.length := by omega
    rw [mangle_params_loop, if_neg hi, List.drop_eq_nil_of_le (by omega)]
    rfl
  | succ fuel ih =>
    intro i s h
    rw [mangle_params_loop]
    by_cases hi : i < params.length
    · rw [if_pos hi]
      rw [List.drop_eq_getElem_cons hi, mangle_type_list,
        List.getD_eq_getElem params ir_type.Other hi]
      cases mangle_type tail params[i] s with
      | error e => rfl
      | ok s1 => exact ih (i + 1) s1 (by omega)
    · rw [if_neg hi, List.drop_eq_nil_of_le (by omega)]
      rfl

/-- For an instance entity the first parameter is never looked at. -/
theorem mangle_parameter_types_skips_receiver {tail : scratch_tail} (receiver : ir_type) (params : List ir_type)
    (s : mstate) :
    mangle_parameter_types tail (receiver :: params) false s = mangle_parameter_types tail params true s := by
  unfold mangle_parameter_types
  simp only [Bool.false_eq_true, if_false, if_true]
  rw [mangle_params_loop_eq _ _ _ _ (by simp), mangle_params_loop_eq _ _ _ _ (by simp)]
  simp only [List.length_cons, List.drop_succ_cons,
    List.drop_zero, Nat.cast_add, Nat.cast_one, Nat.cast_zero]
  have : ((params.length : Int) + 1 - 1 = 0) ↔ ((params.length : Int) - 0 = 0) := by
    constructor <;> intro h <;> omega
  by_cases h0 : (params.length : Int) - 0 = 0
  · rw [if_pos h0, if_pos (this.mpr h0)]
  · rw [if_neg h0, if_neg (fun h => h0 (this.mp h))]

/-- For an instance entity the identifier is the one of the static entity declared
without the first parameter. -/
theorem mangle_entity_name_skips_receiver {tail : scratch_tail} (st : List st_entry) (ct : List (List Char))
    (owner receiver : ir_type) (params ress : List ir_type) (name : List Char) :
    mangle_entity_name tail st ct ⟨owner, .Method (receiver :: params) ress, name, false⟩
      = mangle_entity_name tail st ct ⟨owner, .Method params ress, name, true⟩ := by
  unfold mangle_entity_name
  simp only [mangle_parameter_types_skips_receiver]

/-- The table is flushed first: its previous content plays no role. -/
theorem mangle_entity_name_flush {tail : scratch_tail} (st : List st_entry) (ct : List (List Char))
    (entity : ir_entity) : mangle_entity_name tail st ct entity = mangle_entity_name tail st [] entity :=
  rfl

/-! ### The component walk on an arbitrary name -/

/-- How one iteration splits the rest of the name: the slashes skipped, the component
scanned and what is left; at least one byte is consumed. -/
theorem walk_split (p : List Char) (hp : p ≠ []) :
    ∃ pre comp ce : List Char, p = pre ++ comp ++ ce ∧ pre ++ comp ≠ [] ∧
      p.dropWhile (fun x => x = '/') = comp ++ ce ∧
      (comp ++ ce).takeWhile (fun x => x ≠ '/') = comp := by
  refine ⟨p.takeWhile (fun x => x = '/'),
    (p.dropWhile (fun x => x = '/')).takeWhile (fun x => x ≠ '/'),
    (p.dropWhile (fun x => x = '/')).dropWhile (fun x => x ≠ '/'), ?_, ?_, ?_, ?_⟩
  · rw [List.append_assoc, List.takeWhile_append_dropWhile, List.takeWhile_append_dropWhile]
  · cases p with
    | nil => exact absurd rfl hp
    | cons x xs =>
      by_cases hx : x = '/'
      · simp [List.takeWhile, hx]
      · simp [List.takeWhile, List.dropWhile, hx]
  · rw [List.takeWhile_append_dropWhile]
  · rw [List.takeWhile_append_dropWhile]

/-- One iteration of the walk, in terms of the split of the rest of the name. -/
theorem walk_components_iteration (done p : List Char) (fuel : Nat) (lm : Int) (s : mstate)
    (hp : p ≠ []) :
    ∃ pre comp ce : List Char, p = pre ++ comp ++ ce ∧ pre ++ comp ≠ [] ∧
      walk_components (done ++ p) (fuel + 1) p lm s =
        if (done ++ pre ++ comp).length + 1 < MB_SIZE then
          if find_in_ct s.ct (done ++ pre ++ comp) ≥ 0 then
            walk_components (done ++ p) fuel ce (find_in_ct s.ct (done ++ pre ++ comp)) s
          else
            match insert_ct s.ct (done ++ pre ++ comp) with
            | .error e => .error e
            | .ok ct =>
              walk_components (done ++ p) fuel ce (if lm ≥ 0 then -1 else lm)
                ⟨ct, (if lm ≥ 0 then emit_substitution lm s.obst else s.obst)
                  ++ printf_d comp.length ++ comp⟩
        else .error .assertion := by
  obtain ⟨pre, comp, ce, hsplit, hne, hdrop, htake⟩ := walk_split p hp
  refine ⟨pre, comp, ce, hsplit, hne, ?_⟩
  rw [walk_components_step _ _ _ _ _ hp, hdrop, htake]
  have h1 : (comp ++ ce).drop comp.length = ce := by simp
  have h2 : (comp ++ ce).take comp.length = comp := by simp
  have h3 : (done ++ p).length - ce.length = (done ++ pre ++ comp).length := by
    rw [hsplit]
    simp only [List.length_append]
    omega
  have h4 : (done ++ p).take (done ++ pre ++ comp).length = done ++ pre ++ comp := by
    rw [hsplit, ← List.append_assoc, ← List.append_assoc, List.take_left']
    rfl
  rw [h1, h2, h3, h4]

theorem emit_substitution_eq (m : Int) (obst : List Char) :
    emit_substitution m obst = obst ++ emit_substitution m [] := by
  unfold emit_substitution
  split <;> simp

theorem emit_substitution_length (m : Int) :
    2 ≤ (emit_substitution m []).length ∧ (emit_substitution m []).length ≤ 3 := by
  unfold emit_substitution
  split <;> simp

theorem emit_substitution_length_eq (m : Int) :
    (emit_substitution m []).length = if m > 0 then 3 else 2 := by
  unfold emit_substitution
  split <;> simp

/-- What the walk does on any name and any table, from any cursor position: it never
exhausts its iteration budget; when it returns, the table has only grown, by prefixes of
the name, and the output has only grown; and when it starts before the end of a name
that is not yet in the table, its last iteration registers the full name and emits the
last component, so no match is left pending. -/
theorem walk_components_spec (string : List Char) :
    ∀ (fuel : Nat) (p done : List Char) (lm : Int) (s : mstate),
      string = done ++ p → p.length ≤ fuel → -1 ≤ lm →
      walk_components string fuel p lm s = .error .assertion ∨
      ∃ (r : Int) (s' : mstate) (ext : List (List Char)) (out : List Char),
        walk_components string fuel p lm s = .ok (r, s') ∧
        s'.ct = s.ct ++ ext ∧ s'.obst = s.obst ++ out ∧ -1 ≤ r ∧
        (∀ e ∈ ext, e.length ≤ string.length) ∧
        (p ≠ [] → string ∉ s.ct →
          r = -1 ∧ out ≠ [] ∧
          ∃ ext0, ext = ext0 ++ [string] ∧ ∀ e ∈ ext0, e.length < string.length) := by
  intro fuel
  induction fuel with
  | zero =>
    intro p done lm s _ hlen hlm
    have hp : p = [] := List.eq_nil_of_length_eq_zero (by omega)
    subst hp
    right
    exact ⟨lm, s, [], [], walk_components_nil _ _ _ _, by simp, by simp, hlm, by simp,
      fun h => absurd rfl h⟩
  | succ fuel ih =>
    intro p done lm s hstr hlen hlm
    by_cases hp : p = []
    · subst hp
      right
      exact ⟨lm, s, [], [], walk_components_nil _ _ _ _, by simp, by simp, hlm, by simp,
        fun h => absurd rfl h⟩
    · obtain ⟨pre, comp, ce, hsplit, hne, hiter⟩ :=
        walk_components_iteration done p fuel lm s hp
      subst hstr
      rw [hiter]
      have hstr' : done ++ p = (done ++ pre ++ comp) ++ ce := by
        rw [hsplit]
        simp
      have hpos : 0 < (pre ++ comp).length := List.length_pos.mpr hne
      have hce_len : ce.length ≤ fuel := by
        rw [hsplit] at hlen
        simp only [List.length_append] at hlen hpos
        omega
      have hbuf_le : (done ++ pre ++ comp).length ≤ (done ++ p).length := by
        rw [hstr']
        simp
      have hbuf_lt : ce ≠ [] → (done ++ pre ++ comp).length < (done ++ p).length := by
        intro hce
        have := List.length_pos.mpr hce
        rw [hstr']
        simp only [List.length_append]
        omega
      have hbuf_eq : ce = [] → done ++ pre ++ comp = done ++ p := by
        intro hce
        rw [hstr', hce, List.append_nil]
      by_cases h1 : (done ++ pre ++ comp).length + 1 < MB_SIZE
      · rw [if_pos h1]
        by_cases hf : find_in_ct s.ct (done ++ pre ++ comp) ≥ 0
        · rw [if_pos hf]
          by_cases hce : ce = []
          · right
            refine ⟨_, s, [], [], by rw [hce, walk_components_nil], by simp, by simp,
              by omega, by simp, ?_⟩
            intro _ hnot
            exfalso
            apply hnot
            rw [← hbuf_eq hce]
            exact (find_in_ct_nonneg_iff _ _).mp hf
          · rcases ih ce (done ++ pre ++ comp) (find_in_ct s.ct (done ++ pre ++ comp)) s
                hstr' hce_len (by omega) with herr | ⟨r, s', ext, out, heq, hct, hob, hr, hb, hc⟩
            · left
              exact herr
            · right
              exact ⟨r, s', ext, out, heq, hct, hob, hr, hb, fun _ hnot => hc hce hnot⟩
        · rw [if_neg hf]
          by_cases h36 : s.ct.length < 36
          · rw [insert_ct_eq_ok _ h36]
            simp only
            have hobst : (if lm ≥ 0 then emit_substitution lm s.obst else s.obst)
                ++ printf_d comp.length ++ comp
                = s.obst ++ ((if lm ≥ 0 then emit_substitution lm [] else [])
                    ++ printf_d comp.length ++ comp) := by
              split
              · rw [emit_substitution_eq]
                simp
              · simp
            have hout_ne : ∀ out' : List Char,
                ((if lm ≥ 0 then emit_substitution lm [] else [])
                    ++ printf_d comp.length ++ comp) ++ out' ≠ [] := by
              intro out' h
              have := printf_d_ne_nil comp.length
              simp only [List.append_eq_nil] at h
              exact this h.1.1.2
            have hlm' : -1 ≤ (if lm ≥ 0 then (-1 : Int) else lm) := by
              split <;> omega
            by_cases hce : ce = []
            · right
              refine ⟨_, _, [done ++ pre ++ comp], _, by rw [hce, walk_components_nil], rfl,
                hobst, hlm', ?_, ?_⟩
              · intro e he
                rw [List.mem_singleton.mp he]
                exact hbuf_le
              · intro _ _
                refine ⟨?_, ?_, [], ?_, by simp⟩
                · split <;> omega
                · simpa using hout_ne []
                · rw [hbuf_eq hce]
                  rfl
            · rcases ih ce (done ++ pre ++ comp) (if lm ≥ 0 then -1 else lm)
                  ⟨s.ct ++ [done ++ pre ++ comp],
                    (if lm ≥ 0 then emit_substitution lm s.obst else s.obst)
                      ++ printf_d comp.length ++ comp⟩
                  hstr' hce_len hlm' with herr | ⟨r, s', ext, out, heq, hct, hob, hr, hb, hc⟩
              · left
                exact herr
              · right
                refine ⟨r, s', (done ++ pre ++ comp) :: ext,
                  ((if lm ≥ 0 then emit_substitution lm [] else [])
                    ++ printf_d comp.length ++ comp) ++ out, heq, ?_, ?_, hr, ?_, ?_⟩
                · rw [hct]
                  simp
                · rw [hob, hobst, List.append_assoc]
                · intro e he
                  rcases List.mem_cons.mp he with h | h
                  · rw [h]
                    exact hbuf_le
                  · exact hb e h
                · intro _ hnot
                  have hnot' : done ++ p ∉ s.ct ++ [done ++ pre ++ comp] := by
                    intro hm
                    rcases List.mem_append.mp hm with h | h
                    · exact hnot h
                    · have := hbuf_lt hce
                      rw [← List.mem_singleton.mp h] at this
                      exact lt_irrefl _ this
                  obtain ⟨hr1, _, ext0, hext, hext0⟩ := hc hce hnot'
                  refine ⟨hr1, hout_ne out, (done ++ pre ++ comp) :: ext0, ?_, ?_⟩
                  · rw [hext]
                    simp
                  · intro e he
                    rcases List.mem_cons.mp he with h | h
                    · rw [h]
                      exact hbuf_lt hce
                    · exact hext0 e h
          · left
            rw [insert_ct_eq_error _ h36]
      · left
        rw [if_neg h1]

/-! ### The qualified-name encoder with the pointer flag -/

/-- The three ways `mangle_qualified_class_name` returns for a pointer to a class that
is not the global type: the pointer spelling is known, only the bare class is known, or
a composite name is built and the pointer spelling registered after it. -/
theorem mangle_qualified_class_name_pointer_cases (name : List Char) (s s1 : mstate) (n : Bool)
    (h : mangle_qualified_class_name (.Class name false) true s = .ok (n, s1)) :
    name.length + 1 < 1024 ∧
    (('P' :: name ∈ s.ct ∧ n = false ∧
        s1 = ⟨s.ct, s.obst ++ emit_substitution (find_in_ct s.ct ('P' :: name)) []⟩) ∨
     ('P' :: name ∉ s.ct ∧ name ∈ s.ct ∧ n = false ∧
        s1 = ⟨s.ct ++ ['P' :: name],
              s.obst ++ 'P' :: emit_substitution (find_in_ct s.ct name) []⟩) ∨
     ('P' :: name ∉ s.ct ∧ name ∉ s.ct ∧ n = true ∧
        ∃ (ext : List (List Char)) (out : List Char),
          s1 = ⟨s.ct ++ ext ++ ['P' :: name], s.obst ++ 'P' :: 'N' :: out⟩ ∧
          (∀ e ∈ ext, e.length ≤ name.length) ∧
          (name ≠ [] → out ≠ [] ∧
            ∃ ext0, ext = ext0 ++ [name] ∧ ∀ e ∈ ext0, e.length < name.length) ∧
          (name = [] → ext = [] ∧ out = []))) := by
  unfold mangle_qualified_class_name at h
  simp only [Bool.false_eq_true, if_false, true_and, if_true, MB_SIZE] at h
  by_cases hlen : name.length + 1 < 1024
  · refine ⟨hlen, ?_⟩
    simp only [hlen, not_true_eq_false, if_false] at h
    by_cases hp : 'P' :: name ∈ s.ct
    · left
      have hf := (find_in_ct_nonneg_iff s.ct ('P' :: name)).mpr hp
      rw [if_pos hf] at h
      simp only [Except.ok.injEq, Prod.mk.injEq] at h
      refine ⟨hp, h.1.symm, ?_⟩
      rw [← h.2, emit_substitution_eq]
    · right
      have hf : ¬ (find_in_ct s.ct ('P' :: name) ≥ 0) :=
        fun hge => hp ((find_in_ct_nonneg_iff _ _).mp hge)
      rw [if_neg hf] at h
      by_cases hc : name ∈ s.ct
      · left
        have hfc := (find_in_ct_nonneg_iff s.ct name).mpr hc
        rw [if_pos hfc] at h
        by_cases h36 : s.ct.length < 36
        · rw [insert_ct_eq_ok _ h36] at h
          simp only [Except.ok.injEq, Prod.mk.injEq] at h
          refine ⟨hp, hc, h.1.symm, ?_⟩
          rw [← h.2, emit_substitution_eq]
          simp
        · rw [insert_ct_eq_error _ h36] at h
          exact Except.noConfusion h
      · right
        have hfc : ¬ (find_in_ct s.ct name ≥ 0) :=
          fun hge => hc ((find_in_ct_nonneg_iff _ _).mp hge)
        rw [if_neg hfc] at h
        rcases walk_components_spec name name.length name [] (-1)
            ⟨s.ct, s.obst ++ ['P'] ++ ['N']⟩ rfl le_rfl le_rfl with
          herr | ⟨r, s', ext, out, heq, hct, hob, _, hb, hcnd⟩
        · rw [herr] at h
          exact Except.noConfusion h
        · rw [heq] at h
          simp only at h
          have hnotin : 'P' :: name ∉ s'.ct := by
            rw [hct]
            intro hm
            rcases List.mem_append.mp hm with h' | h'
            · exact hp h'
            · have := hb _ h'
              simp only [List.length_cons] at this
              omega
          rw [if_pos ((find_in_ct_eq_neg_one_iff _ _).mpr hnotin)] at h
          by_cases h36 : s'.ct.length < 36
          · rw [insert_ct_eq_ok _ h36] at h
            simp only [Except.ok.injEq, Prod.mk.injEq] at h
            refine ⟨hp, hc, h.1.symm, ext, out, ?_, hb, ?_, ?_⟩
            · rw [← h.2, hct, hob]
              simp
            · intro hne
              obtain ⟨_, hout, hext⟩ := hcnd hne hc
              exact ⟨hout, hext⟩
            · intro hnil
              subst hnil
              rw [walk_components_nil] at heq
              simp only [Except.ok.injEq, Prod.mk.injEq] at heq
              rw [← heq.2] at hct hob
              simp only [List.self_eq_append_right] at hct hob
              exact ⟨hct, hob⟩
          · rw [insert_ct_eq_error _ h36] at h
            exact Except.noConfusion h
  · simp only [hlen, not_false_eq_true, if_true] at h
    exact Except.noConfusion h

theorem mangle_qualified_class_name_pointer_known (name : List Char) (s : mstate)
    (hlen : name.length < 1023) (hp : 'P' :: name ∈ s.ct) :
    mangle_qualified_class_name (.Class name false) true s
      = .ok (false, ⟨s.ct, s.obst ++ emit_substitution (find_in_ct s.ct ('P' :: name)) []⟩) := by
  have hf := (find_in_ct_nonneg_iff s.ct ('P' :: name)).mpr hp
  have hlen' : name.length + 1 < 1024 := by omega
  unfold mangle_qualified_class_name
  simp only [Bool.false_eq_true, if_false, true_and, if_true, MB_SIZE, hlen', not_true_eq_false,
    hf]
  rw [emit_substitution_eq]

theorem mangle_type_pointer_class {tail : scratch_tail} (name : List Char) (g : Bool) (s : mstate) :
    mangle_type tail (.Pointer (.Class name g)) s =
      match mangle_qualified_class_name (.Class name g) true s with
      | .error e => .error e
      | .ok (emitted_N, s1) =>
        if emitted_N then .ok ⟨s1.ct, s1.obst ++ ['E']⟩ else .ok s1 := by
  rw [mangle_type]

theorem mangle_type_pointer_array {tail : scratch_tail} (pt : ir_type) (s : mstate)
    (hpt : ∀ name g, pt ≠ .Class name g) :
    mangle_type tail (.Pointer pt) s = mangle_array_type tail pt s := by
  cases pt with
  | Class name g => exact absurd rfl (hpt name g)
  | Primitive link =>
    rw [mangle_type, mangle_array_type]
    exact hpt
  | Pointer t =>
    rw [mangle_type, mangle_array_type]
    exact hpt
  | Other =>
    rw [mangle_type, mangle_array_type]
    exact hpt

/-- The non-pointer encoder only appends to the table and to the output, and what it
registers is no longer than the class name. -/
theorem mangle_qualified_class_name_grows (name : List Char) (g ptr : Bool) (s s1 : mstate)
    (n : Bool) (h : mangle_qualified_class_name (.Class name g) ptr s = .ok (n, s1)) :
    ∃ (ext : List (List Char)) (out : List Char),
      s1.ct = s.ct ++ ext ∧ s1.obst = s.obst ++ out ∧ ∀ e ∈ ext, e.length ≤ name.length + 1 := by
  cases g with
  | true =>
    simp only [mangle_qualified_class_name, if_true, Except.ok.injEq, Prod.mk.injEq] at h
    exact ⟨[], [], by simp [← h.2], by simp [← h.2], by simp⟩
  | false =>
    cases ptr with
    | true =>
      obtain ⟨_, hc | hc | hc⟩ := mangle_qualified_class_name_pointer_cases name s s1 n h
      · obtain ⟨_, _, hs⟩ := hc
        exact ⟨[], _, by simp [hs], by rw [hs], by simp⟩
      · obtain ⟨_, _, _, hs⟩ := hc
        exact ⟨['P' :: name], _, by rw [hs], by rw [hs], by simp⟩
      · obtain ⟨_, _, _, ext, out, hs, hb, _⟩ := hc
        refine ⟨ext ++ ['P' :: name], _, by simp [hs], by rw [hs], ?_⟩
        intro e he
        rcases List.mem_append.mp he with h' | h'
        · have := hb e h'
          omega
        · rw [List.mem_singleton.mp h']
          simp
    | false =>
      unfold mangle_qualified_class_name at h
      simp only [Bool.false_eq_true, if_false, false_and] at h
      have hneg : ¬ ((-1 : Int) ≥ 0) := by decide
      simp only [hneg, if_false] at h
      by_cases hc : find_in_ct s.ct name ≥ 0
      · rw [if_pos hc] at h
        simp only [Except.ok.injEq, Prod.mk.injEq] at h
        refine ⟨[], emit_substitution (find_in_ct s.ct name) [], by simp [← h.2], ?_, by simp⟩
        rw [← h.2, emit_substitution_eq]
      · rw [if_neg hc] at h
        rcases walk_components_spec name name.length name [] (-1)
            ⟨s.ct, s.obst ++ ['N']⟩ rfl le_rfl le_rfl with
          herr | ⟨r, s', ext, out, heq, hct, hob, _, hb, _⟩
        · rw [herr] at h
          exact Except.noConfusion h
        · rw [heq] at h
          simp only [Except.ok.injEq, Prod.mk.injEq] at h
          refine ⟨ext, 'N' :: out, by rw [← h.2, hct], by rw [← h.2, hob]; simp, ?_⟩
          intro e he
          have := hb e he
          omega

/-! ### Types -/

theorem mangle_type_without_substitition_pointer_array (pt : ir_type) (o : List Char)
    (hpt : ∀ name g, pt ≠ .Class name g) :
    mangle_type_without_substitition (.Pointer pt) o =
      match mangle_type_without_substitition pt (o ++ "JArray<".toList) with
      | .error e => .error e
      | .ok o1 => .ok (o1 ++ ['>']) := by
  cases pt with
  | Class name g => exact absurd rfl (hpt name g)
  | Primitive link => rfl
  | Pointer t => rfl
  | Other => rfl

/-- The unsubstituted spelling is appended to the buffer whatever the buffer holds. -/
theorem mangle_type_without_substitition_frame (t : ir_type) :
    ∀ o : List Char, mangle_type_without_substitition t o =
      match mangle_type_without_substitition t [] with
      | .error e => .error e
      | .ok sp => .ok (o ++ sp) := by
  induction t with
  | Primitive link =>
    intro o
    cases link with
    | none => simp [mangle_type_without_substitition, mangle_primitive_type]
    | some tag => simp [mangle_type_without_substitition, mangle_primitive_type]
  | Class name g =>
    intro o
    simp [mangle_type_without_substitition]
  | Other =>
    intro o
    simp [mangle_type_without_substitition]
  | Pointer pt ih =>
    intro o
    by_cases hpt : ∃ name g, pt = .Class name g
    · obtain ⟨name, g, rfl⟩ := hpt
      simp [mangle_type_without_substitition]
    · have hpt' : ∀ name g, pt ≠ .Class name g := fun name g h => hpt ⟨name, g, h⟩
      rw [mangle_type_without_substitition_pointer_array pt o hpt',
        mangle_type_without_substitition_pointer_array pt [] hpt',
        ih (o ++ "JArray<".toList), ih ([] ++ "JArray<".toList)]
      cases mangle_type_without_substitition pt [] with
      | error e => rfl
      | ok sp => simp

/-- What a returning call of the array encoder did: either the scratch string (the
spelling and the bytes behind it) was in the table and one back-reference was emitted,
or the type was expanded and the scratch string without its first byte and the scratch
string were registered last. -/
theorem mangle_array_type_body_cases (junk : List Char)
    (rec : mstate → Except Fault mstate) (T : ir_type)
    (s s' : mstate) (h : mangle_array_type_body junk rec T s = .ok s') :
    ∃ sp, mangle_type_without_substitition T [] = .ok sp ∧
      ((array_spelling sp ++ junk ∈ s.ct ∧
          s' = ⟨s.ct, s.obst ++ emit_substitution (find_in_ct s.ct (array_spelling sp ++ junk)) []⟩) ∨
       (array_spelling sp ++ junk ∉ s.ct ∧ ∃ s1 s2 : mstate,
          (("JArray".toList ∈ s.ct ∧
              s1 = ⟨s.ct, s.obst ++ 'P' ::
                emit_substitution (find_in_ct s.ct "JArray".toList) []⟩) ∨
           ("JArray".toList ∉ s.ct ∧
              s1 = ⟨s.ct ++ ["JArray".toList], s.obst ++ "P6JArray".toList⟩)) ∧
          rec ⟨s1.ct, s1.obst ++ ['I']⟩ = .ok s2 ∧
          s' = ⟨s2.ct ++ [(array_spelling sp ++ junk).drop 1, array_spelling sp ++ junk],
                s2.obst ++ ['E']⟩)) := by
  unfold mangle_array_type_body at h
  rw [mangle_type_without_substitition_frame] at h
  cases hsp : mangle_type_without_substitition T [] with
  | error e =>
    rw [hsp] at h
    exact Except.noConfusion h
  | ok sp =>
    rw [hsp] at h
    refine ⟨sp, rfl, ?_⟩
    simp only at h
    have hu : "PJArray<".toList ++ sp ++ ['>'] ++ junk = array_spelling sp ++ junk := rfl
    rw [hu] at h
    generalize array_spelling sp ++ junk = u at h ⊢
    by_cases hm : u ∈ s.ct
    · left
      rw [if_pos ((find_in_ct_nonneg_iff _ _).mpr hm)] at h
      simp only [Except.ok.injEq] at h
      refine ⟨hm, ?_⟩
      rw [← h, emit_substitution_eq]
    · right
      refine ⟨hm, ?_⟩
      rw [if_neg (fun hge => hm ((find_in_ct_nonneg_iff _ _).mp hge))] at h
      by_cases hj : "JArray".toList ∈ s.ct
      · rw [if_pos ((find_in_ct_nonneg_iff _ _).mpr hj)] at h
        simp only at h
        cases hrec : rec ⟨s.ct, emit_substitution (find_in_ct s.ct "JArray".toList)
            (s.obst ++ ['P']) ++ ['I']⟩ with
        | error e =>
          rw [hrec] at h
          exact Except.noConfusion h
        | ok s2 =>
          rw [hrec] at h
          simp only at h
          refine ⟨⟨s.ct, s.obst ++ 'P' ::
            emit_substitution (find_in_ct s.ct "JArray".toList) []⟩, s2, Or.inl ⟨hj, rfl⟩, ?_, ?_⟩
          · rw [← hrec, emit_substitution_eq _ (s.obst ++ ['P'])]
            simp
          · by_cases h36 : s2.ct.length < 36
            · rw [insert_ct_eq_ok _ h36] at h
              simp only at h
              by_cases h36' : (s2.ct ++ [u.drop 1]).length < 36
              · rw [insert_ct_eq_ok _ h36'] at h
                simp only [Except.ok.injEq] at h
                rw [← h]
                simp
              · rw [insert_ct_eq_error _ h36'] at h
                exact Except.noConfusion h
            · rw [insert_ct_eq_error _ h36] at h
              exact Except.noConfusion h
      · rw [if_neg (fun hge => hj ((find_in_ct_nonneg_iff _ _).mp hge))] at h
        by_cases h36j : s.ct.length < 36
        · rw [insert_ct_eq_ok _ h36j] at h
          simp only at h
          cases hrec : rec ⟨s.ct ++ ["JArray".toList],
              s.obst ++ ['P'] ++ "6JArray".toList ++ ['I']⟩ with
          | error e =>
            rw [hrec] at h
            exact Except.noConfusion h
          | ok s2 =>
            rw [hrec] at h
            simp only at h
            refine ⟨⟨s.ct ++ ["JArray".toList], s.obst ++ "P6JArray".toList⟩, s2,
              Or.inr ⟨hj, rfl⟩, ?_, ?_⟩
            · rw [← hrec]
              simp
            · by_cases h36 : s2.ct.length < 36
              · rw [insert_ct_eq_ok _ h36] at h
                simp only at h
                by_cases h36' : (s2.ct ++ [u.drop 1]).length < 36
                · rw [insert_ct_eq_ok _ h36'] at h
                  simp only [Except.ok.injEq] at h
                  rw [← h]
                  simp
                · rw [insert_ct_eq_error _ h36'] at h
                  exact Except.noConfusion h
              · rw [insert_ct_eq_error _ h36] at h
                exact Except.noConfusion h
        · rw [insert_ct_eq_error _ h36j] at h
          exact Except.noConfusion h

theorem array_spelling_length (sp : List Char) : (array_spelling sp).length = sp.length + 9 := by
  simp [array_spelling]

theorem array_spelling_drop_ne (sp : List Char) : (array_spelling sp).drop 1 ≠ array_spelling sp := by
  intro h
  have := congrArg List.length h
  simp [array_spelling] at this

/-- The type encoder only appends to the table and to the output. -/
theorem mangle_type_grows {tail : scratch_tail} (t : ir_type) :
    ∀ s s1 : mstate, mangle_type tail t s = .ok s1 →
      ∃ (ext : List (List Char)) (out : List Char),
        s1.ct = s.ct ++ ext ∧ s1.obst = s.obst ++ out := by
  induction t with
  | Primitive link =>
    intro s s1 h
    cases link with
    | none =>
      simp [mangle_type, mangle_primitive_type] at h
    | some tag =>
      simp only [mangle_type, mangle_primitive_type, Except.ok.injEq] at h
      exact ⟨[], tag, by simp [← h], by simp [← h]⟩
  | Class name g =>
    intro s s1 h
    simp only [mangle_type, Except.ok.injEq] at h
    exact ⟨[], [], by simp [← h], by simp [← h]⟩
  | Other =>
    intro s s1 h
    simp only [mangle_type, Except.ok.injEq] at h
    exact ⟨[], [], by simp [← h], by simp [← h]⟩
  | Pointer pt ih =>
    intro s s1 h
    by_cases hpt : ∃ name g, pt = .Class name g
    · obtain ⟨name, g, rfl⟩ := hpt
      rw [mangle_type_pointer_class] at h
      cases hq : mangle_qualified_class_name (.Class name g) true s with
      | error e =>
        rw [hq] at h
        exact Except.noConfusion h
      | ok r =>
        obtain ⟨n, s2⟩ := r
        rw [hq] at h
        obtain ⟨ext, out, hct, hob, _⟩ := mangle_qualified_class_name_grows name g true s s2 n hq
        refine ⟨ext, if n then out ++ ['E'] else out, ?_, ?_⟩
        · cases n <;> simp at h <;> rw [← h] <;> exact hct
        · cases n <;> simp at h <;> rw [← h] <;> simp [hob]
    · have hpt' : ∀ name g, pt ≠ .Class name g := fun name g h => hpt ⟨name, g, h⟩
      rw [mangle_type_pointer_array pt s hpt', mangle_array_type] at h
      obtain ⟨sp, hsp, hc | hc⟩ := mangle_array_type_body_cases _ _ _ _ _ h
      · obtain ⟨_, hs⟩ := hc
        exact ⟨[], _, by simp [hs], by rw [hs]⟩
      · obtain ⟨_, s2, s3, hj, hrec, hs⟩ := hc
        obtain ⟨ext, out, hct, hob⟩ := ih _ _ hrec
        rcases hj with ⟨_, hs2⟩ | ⟨_, hs2⟩
        · exact ⟨ext ++ [(array_spelling sp ++ tail pt s).drop 1, array_spelling sp ++ tail pt s],
            'P' :: emit_substitution (find_in_ct s.ct "JArray".toList) [] ++ ['I'] ++ out ++ ['E'],
            by rw [hs, hct, hs2]; simp, by rw [hs, hob, hs2]; simp⟩
        · exact ⟨"JArray".toList :: ext ++
              [(array_spelling sp ++ tail pt s).drop 1, array_spelling sp ++ tail pt s],
            "P6JArray".toList ++ ['I'] ++ out ++ ['E'],
            by rw [hs, hct, hs2]; simp, by rw [hs, hob, hs2]; simp⟩

theorem mangle_array_type_grows {tail : scratch_tail} (t : ir_type) (s s1 : mstate)
    (h : mangle_array_type tail t s = .ok s1) :
    ∃ (ext : List (List Char)) (out : List Char), s1.ct = s.ct ++ ext ∧ s1.obst = s.obst ++ out := by
  rw [mangle_array_type] at h
  obtain ⟨sp, _, hc | hc⟩ := mangle_array_type_body_cases _ _ _ _ _ h
  · obtain ⟨_, hs⟩ := hc
    exact ⟨[], _, by simp [hs], by rw [hs]⟩
  · obtain ⟨_, s2, s3, hj, hrec, hs⟩ := hc
    obtain ⟨ext, out, hct, hob⟩ := mangle_type_grows t _ _ hrec
    rcases hj with ⟨_, hs2⟩ | ⟨_, hs2⟩
    · exact ⟨ext ++ [(array_spelling sp ++ tail t s).drop 1, array_spelling sp ++ tail t s],
        'P' :: emit_substitution (find_in_ct s.ct "JArray".toList) [] ++ ['I'] ++ out ++ ['E'],
        by rw [hs, hct, hs2]; simp, by rw [hs, hob, hs2]; simp⟩
    · exact ⟨"JArray".toList :: ext ++
          [(array_spelling sp ++ tail t s).drop 1, array_spelling sp ++ tail t s],
        "P6JArray".toList ++ ['I'] ++ out ++ ['E'],
        by rw [hs, hct, hs2]; simp, by rw [hs, hob, hs2]; simp⟩

/-- A session only ever appends to the table. -/
theorem session_reaches_table (s s1 : mstate) (h : session_reaches s s1) :
    ∃ ext : List (List Char), s1.ct = s.ct ++ ext := by
  induction h with
  | refl => exact ⟨[], by simp⟩
  | tail _ hstep ih =>
    obtain ⟨ext, hext⟩ := ih
    cases hstep with
    | type tl t _ _ ht =>
      obtain ⟨ext', _, hct, _⟩ := mangle_type_grows t _ _ ht
      exact ⟨ext ++ ext', by rw [hct, hext, List.append_assoc]⟩
    | array tl t _ _ ht =>
      obtain ⟨ext', _, hct, _⟩ := mangle_array_type_grows t _ _ ht
      exact ⟨ext ++ ext', by rw [hct, hext, List.append_assoc]⟩
    | insert _ name ct1 hins =>
      by_cases h36 : (s.ct ++ ext).length < 36
      · rw [hext, insert_ct_eq_ok _ h36] at hins
        exact ⟨ext ++ [name], by rw [← Except.ok.inj hins, List.append_assoc]⟩
      · rw [hext, insert_ct_eq_error _ h36] at hins
        exact Except.noConfusion hins
    | class_name c p n _ _ hc =>
      cases c with
      | Class name g =>
        obtain ⟨ext', _, hct, _, _⟩ := mangle_qualified_class_name_grows name g p _ _ n hc
        exact ⟨ext ++ ext', by rw [hct, hext, List.append_assoc]⟩
      | Primitive link => simp [mangle_qualified_class_name] at hc
      | Pointer t => simp [mangle_qualified_class_name] at hc
      | Other => simp [mangle_qualified_class_name] at hc
    | grow _ bytes => exact ⟨ext, hext⟩

/-! ### Repeated occurrences -/

theorem mangle_type_pointer_known {tail : scratch_tail} (name : List Char) (s : mstate) (pre post : List (List Char))
    (hlen : name.length < 1023) (hct : s.ct = pre ++ ('P' :: name) :: post)
    (hfirst : 'P' :: name ∉ pre) :
    mangle_qualified_class_name (.Class name false) true s
        = .ok (false, ⟨s.ct, s.obst ++ back_reference pre.length⟩)
    ∧ mangle_type tail (.Pointer (.Class name false)) s
        = .ok ⟨s.ct, s.obst ++ back_reference pre.length⟩ := by
  have hmem : 'P' :: name ∈ s.ct := by
    rw [hct]
    simp
  have hq := mangle_qualified_class_name_pointer_known name s hlen hmem
  have hidx : find_in_ct s.ct ('P' :: name) = (pre.length : Int) := by
    rw [hct]
    exact find_in_ct_split post hfirst
  rw [hidx] at hq
  refine ⟨hq, ?_⟩
  rw [mangle_type_pointer_class, hq]
  rfl

theorem mangle_array_type_known {tail : scratch_tail} (T : ir_type) (sp : List Char) (s : mstate)
    (pre post : List (List Char)) (hsp : mangle_type_without_substitition T [] = .ok sp)
    (hct : s.ct = pre ++ (array_spelling sp ++ tail T s) :: post)
    (hfirst : array_spelling sp ++ tail T s ∉ pre) :
    mangle_array_type tail T s = .ok ⟨s.ct, s.obst ++ back_reference pre.length⟩ := by
  have hidx : find_in_ct s.ct (array_spelling sp ++ tail T s) = (pre.length : Int) := by
    rw [hct]
    exact find_in_ct_split post hfirst
  have hu : "PJArray<".toList ++ sp ++ ['>'] ++ tail T s = array_spelling sp ++ tail T s := rfl
  rw [mangle_array_type, mangle_array_type_body, mangle_type_without_substitition_frame, hsp]
  simp only
  rw [hu, hidx, if_pos (by omega), emit_substitution_eq]
  rfl

/-- After a returning call of the array encoder its scratch string (the spelling and the
bytes behind it) is in the table; a later call in the session whose scratch string is
the same emits the back-reference to the first index of that string and changes
nothing. -/
theorem mangle_array_type_then_known {tail : scratch_tail} (T : ir_type) (s s1 : mstate)
    (h : mangle_array_type tail T s = .ok s1) :
    ∃ (sp : List Char) (pre post : List (List Char)),
      mangle_type_without_substitition T [] = .ok sp ∧
      s1.ct = pre ++ (array_spelling sp ++ tail T s) :: post ∧
      array_spelling sp ++ tail T s ∉ pre ∧
      (∀ (tail2 : scratch_tail) (s2 : mstate), session_reaches s1 s2 →
        tail2 T s2 = tail T s →
        mangle_array_type tail2 T s2 = .ok ⟨s2.ct, s2.obst ++ back_reference pre.length⟩) := by
  have h' := h
  rw [mangle_array_type] at h'
  obtain ⟨sp, hsp, hc⟩ := mangle_array_type_body_cases _ _ _ _ _ h'
  have hmem : array_spelling sp ++ tail T s ∈ s1.ct := by
    rcases hc with ⟨hmem, hs⟩ | ⟨_, s2, s3, _, _, hs⟩
    · rw [hs]
      exact hmem
    · rw [hs]
      simp
  obtain ⟨pre, post, hct, hfirst⟩ := exists_first_occurrence hmem
  refine ⟨sp, pre, post, hsp, hct, hfirst, ?_⟩
  intro tail2 s2 hreach htl
  obtain ⟨ext, hext⟩ := session_reaches_table s1 s2 hreach
  exact mangle_array_type_known T sp s2 pre (post ++ ext) hsp
    (by rw [hext, hct, htl]; simp) (by rw [htl]; exact hfirst)

theorem back_reference_length (i : Nat) :
    (back_reference i).length = if i = 0 then 2 else 3 := by
  unfold back_reference
  rw [emit_substitution_length_eq]
  by_cases hi : i = 0
  · subst hi
    rfl
  · rw [if_pos (by omega), if_neg hi]

/-- After a returning encoding of pointer-to-class (class not the global type) the
pointer spelling is in the table; every later encoding in the session emits the
back-reference to its first index and changes nothing. The first occurrence emitted at
least as many bytes; it emitted more unless the pointer spelling was in the table before
it, or the bare class was the first table entry, or the class name is empty and absent
from a table that is not empty. -/
theorem mangle_type_pointer_then_known {tail : scratch_tail} (name : List Char) (s s1 : mstate)
    (h : mangle_type tail (.Pointer (.Class name false)) s = .ok s1) :
    ∃ (pre post : List (List Char)) (out1 : List Char),
      s1.ct = pre ++ ('P' :: name) :: post ∧ 'P' :: name ∉ pre ∧ s1.obst = s.obst ++ out1 ∧
      (∀ (tail2 : scratch_tail) (s2 : mstate), session_reaches s1 s2 →
        mangle_type tail2 (.Pointer (.Class name false)) s2
          = .ok ⟨s2.ct, s2.obst ++ back_reference pre.length⟩) ∧
      (back_reference pre.length).length ≤ out1.length ∧
      ((back_reference pre.length).length < out1.length ↔
        ('P' :: name ∉ s.ct ∧ find_in_ct s.ct name ≠ 0 ∧
          ¬ (name = [] ∧ name ∉ s.ct ∧ s.ct ≠ []))) := by
  rw [mangle_type_pointer_class] at h
  cases hq : mangle_qualified_class_name (.Class name false) true s with
  | error e =>
    rw [hq] at h
    exact Except.noConfusion h
  | ok r =>
    obtain ⟨n, s0⟩ := r
    rw [hq] at h
    obtain ⟨hlen, hc⟩ := mangle_qualified_class_name_pointer_cases name s s0 n hq
    have hlen' : name.length < 1023 := by omega
    have hlater : ∀ (pre post : List (List Char)),
        s1.ct = pre ++ ('P' :: name) :: post → 'P' :: name ∉ pre →
        ∀ (tail2 : scratch_tail) (s2 : mstate), session_reaches s1 s2 →
          mangle_type tail2 (.Pointer (.Class name false)) s2
            = .ok ⟨s2.ct, s2.obst ++ back_reference pre.length⟩ := by
      intro pre post hct hfirst tail2 s2 hreach
      obtain ⟨ext, hext⟩ := session_reaches_table s1 s2 hreach
      exact (mangle_type_pointer_known name s2 pre (post ++ ext) hlen'
        (by rw [hext, hct]; simp) hfirst).2
    rcases hc with ⟨hmem, hn, hs0⟩ | ⟨hnp, hmem, hn, hs0⟩ |
      ⟨hnp, hnc, hn, ext, out, hs0, hb, hcnd, hnil⟩
    · subst hn
      simp only [Bool.false_eq_true, if_false, Except.ok.injEq] at h
      obtain ⟨pre, post, hct, hfirst⟩ := exists_first_occurrence hmem
      have hidx : find_in_ct s.ct ('P' :: name) = (pre.length : Int) := by
        rw [hct]
        exact find_in_ct_split post hfirst
      have hct1 : s1.ct = pre ++ ('P' :: name) :: post := by rw [← h, hs0, ← hct]
      refine ⟨pre, post, back_reference pre.length, hct1, hfirst, ?_, hlater pre post hct1 hfirst,
        le_rfl, fun hlt => absurd hlt (lt_irrefl _), fun hr => absurd hmem hr.1⟩
      rw [← h, hs0, hidx]
      rfl
    · subst hn
      simp only [Bool.false_eq_true, if_false, Except.ok.injEq] at h
      have hct1 : s1.ct = s.ct ++ ('P' :: name) :: [] := by rw [← h, hs0]
      have hpos : s.ct.length ≠ 0 := fun h0 =>
        List.not_mem_nil name (List.eq_nil_of_length_eq_zero h0 ▸ hmem)
      have hge := (find_in_ct_nonneg_iff s.ct name).mpr hmem
      have h2 : (back_reference s.ct.length).length = 3 := by
        rw [back_reference_length, if_neg hpos]
      have h1 := emit_substitution_length_eq (find_in_ct s.ct name)
      refine ⟨s.ct, [], 'P' :: emit_substitution (find_in_ct s.ct name) [], hct1, hnp,
        by rw [← h, hs0], hlater _ _ hct1 hnp, ?_, ?_, ?_⟩
      · rw [h2, List.length_cons, h1]
        split <;> omega
      · intro hlt
        refine ⟨hnp, ?_, fun h3 => h3.2.1 hmem⟩
        intro h0
        rw [h2, List.length_cons, h1, h0] at hlt
        simp at hlt
      · intro hr
        rw [h2, List.length_cons, h1, if_pos (by have := hr.2.1; omega)]
        omega
    · subst hn
      simp only [if_true, Except.ok.injEq] at h
      have hnot : 'P' :: name ∉ s.ct ++ ext := by
        intro hm
        rcases List.mem_append.mp hm with h' | h'
        · exact hnp h'
        · have := hb _ h'
          simp only [List.length_cons] at this
          omega
      have hct1 : s1.ct = (s.ct ++ ext) ++ ('P' :: name) :: [] := by rw [← h, hs0]
      have hfind : find_in_ct s.ct name = -1 := (find_in_ct_eq_neg_one_iff _ _).mpr hnc
      have h2 := back_reference_length (s.ct ++ ext).length
      have h1 : ('P' :: 'N' :: out ++ ['E']).length = out.length + 3 := by simp
      refine ⟨s.ct ++ ext, [], 'P' :: 'N' :: out ++ ['E'], hct1, hnot, ?_,
        hlater _ _ hct1 hnot, ?_, ?_⟩
      · rw [← h, hs0]
        simp
      · rw [h1, h2]
        split <;> omega
      · rw [h1, h2]
        by_cases hne : name = []
        · obtain ⟨hext, hout⟩ := hnil hne
          subst hext hout
          simp only [List.append_nil, List.length_nil, Nat.zero_add]
          by_cases hs : s.ct = []
          · rw [hs]
            simp [hfind, hnp, hs] at hnp ⊢
            rw [hs] at hfind
            simp [find_in_ct] at hfind ⊢
            omega
          · have hl : s.ct.length ≠ 0 := fun h0 => hs (List.eq_nil_of_length_eq_zero h0)
            rw [if_neg hl]
            constructor
            · intro hlt
              omega
            · intro hr
              exact absurd ⟨hne, hnc, hs⟩ hr.2.2
        · have hout := List.length_pos.mpr (hcnd hne).1
          constructor
          · intro _
            refine ⟨hnp, by rw [hfind]; omega, fun h3 => hne h3.1⟩
          · intro _
            split <;> omega

/-! ### The output is only appended to -/

theorem walk_components_frame (string : List Char) :
    ∀ (fuel : Nat) (p : List Char) (lm : Int) (ct : List (List Char)) (o : List Char),
      walk_components string fuel p lm ⟨ct, o⟩ =
        match walk_components string fuel p lm ⟨ct, []⟩ with
        | .error e => .error e
        | .ok (r, s1) => .ok (r, ⟨s1.ct, o ++ s1.obst⟩) := by
  intro fuel
  induction fuel with
  | zero =>
    intro p lm ct o
    cases p with
    | nil => simp [walk_components_nil]
    | cons c cs => rfl
  | succ fuel ih =>
    intro p lm ct o
    by_cases hp : p = []
    · subst hp
      simp [walk_components_nil]
    · rw [walk_components_step _ _ _ _ _ hp, walk_components_step _ _ _ _ _ hp]
      simp only
      generalize (p.dropWhile (fun x => x = '/')).takeWhile (fun x => x ≠ '/') = comp
      generalize p.dropWhile (fun x => x = '/') = q
      generalize string.take (string.length - (q.drop comp.length).length) = buf
      by_cases h1 : string.length - (q.drop comp.length).length + 1 < MB_SIZE
      · rw [if_pos h1, if_pos h1]
        by_cases hf : find_in_ct ct buf ≥ 0
        · rw [if_pos hf, if_pos hf]
          exact ih _ _ _ _
        · rw [if_neg hf, if_neg hf]
          cases insert_ct ct buf with
          | error e => rfl
          | ok ct1 =>
            simp only
            rw [ih _ _ ct1 ((if lm ≥ 0 then emit_substitution lm o else o)
                ++ printf_d comp.length ++ q.take comp.length),
              ih _ _ ct1 ((if lm ≥ 0 then emit_substitution lm [] else [])
                ++ printf_d comp.length ++ q.take comp.length)]
            cases walk_components string fuel (q.drop comp.length)
                (if lm ≥ 0 then -1 else lm) ⟨ct1, []⟩ with
            | error e => rfl
            | ok r =>
              obtain ⟨r, s1⟩ := r
              simp only [Except.ok.injEq, Prod.mk.injEq, mstate.mk.injEq, true_and]
              split
              · rw [emit_substitution_eq lm o]
                simp
              · simp
      · rw [if_neg h1, if_neg h1]

theorem mangle_qualified_class_name_frame (c : ir_type) (is_pointer : Bool)
    (ct : List (List Char)) (o : List Char) :
    mangle_qualified_class_name c is_pointer ⟨ct, o⟩ =
      match mangle_qualified_class_name c is_pointer ⟨ct, []⟩ with
      | .error e => .error e
      | .ok (n, s1) => .ok (n, ⟨s1.ct, o ++ s1.obst⟩) := by
  cases c with
  | Primitive link => rfl
  | Pointer t => rfl
  | Other => rfl
  | Class name g =>
    cases g with
    | true => simp [mangle_qualified_class_name]
    | false =>
      unfold mangle_qualified_class_name
      simp only [Bool.false_eq_true, if_false]
      by_cases ha : is_pointer = true ∧ ¬ (name.length + 1 < MB_SIZE)
      · rw [if_pos ha, if_pos ha]
      · rw [if_neg ha, if_neg ha]
        by_cases hfp : (if is_pointer = true then find_in_ct ct ('P' :: name) else -1) ≥ 0
        · rw [if_pos hfp, if_pos hfp]
          simp only [Except.ok.injEq, Prod.mk.injEq, mstate.mk.injEq, true_and]
          rw [emit_substitution_eq]
        · rw [if_neg hfp, if_neg hfp]
          by_cases hf : find_in_ct ct name ≥ 0
          · rw [if_pos hf, if_pos hf]
            cases is_pointer with
            | true =>
              simp only [if_true]
              cases insert_ct ct ('P' :: name) with
              | error e => rfl
              | ok ct1 =>
                simp only [Except.ok.injEq, Prod.mk.injEq, mstate.mk.injEq, true_and]
                rw [emit_substitution_eq, emit_substitution_eq _ ([] ++ ['P'])]
                simp
            | false =>
              simp only [Bool.false_eq_true, if_false, Except.ok.injEq, Prod.mk.injEq,
                mstate.mk.injEq, true_and]
              rw [emit_substitution_eq]
          · rw [if_neg hf, if_neg hf]
            rw [walk_components_frame name _ _ _ ct
                ((if is_pointer = true then o ++ ['P'] else o) ++ ['N']),
              walk_components_frame name _ _ _ ct
                ((if is_pointer = true then [] ++ ['P'] else []) ++ ['N'])]
            cases walk_components name name.length name (-1) ⟨ct, []⟩ with
            | error e => rfl
            | ok r =>
              obtain ⟨r, s1⟩ := r
              simp only
              cases is_pointer with
              | true =>
                simp only [if_true]
                split
                · cases insert_ct s1.ct ('P' :: name) with
                  | error e => rfl
                  | ok ct1 => simp
                · rfl
              | false => simp

/-! ### The entity mangler -/

theorem takeWhile_ne_char (ch : Char) (plain rest : List Char) (hs : ch ∉ plain)
    (hrest : rest = [] ∨ ∃ r, rest = ch :: r) :
    (plain ++ rest).takeWhile (fun x => x ≠ ch) = plain := by
  induction plain with
  | nil =>
    rcases hrest with h | ⟨r, h⟩ <;> subst h <;> simp [List.takeWhile]
  | cons a as ih =>
    have ha : a ≠ ch := fun h => hs (by simp [h])
    have has : ch ∉ as := fun h => hs (List.mem_cons_of_mem _ h)
    have := ih has
    simpa [List.takeWhile, ha] using this

/-- The identifier of an entity that is not a method, in terms of the owner's encoding
on an empty table and empty output. -/
theorem mangle_entity_name_data {tail : scratch_tail} (st : List st_entry) (ct : List (List Char)) (owner t : ir_type)
    (name : List Char) (is_static : Bool) :
    mangle_entity_name tail st ct ⟨owner, .Data t, name, is_static⟩ =
      match mangle_qualified_class_name owner false ⟨[], []⟩ with
      | .error f => .error f
      | .ok (_, s) =>
        .ok ("_Z".toList ++ s.obst
              ++ name_encoding st (name.takeWhile (fun c => c ≠ '.')) ++ ['E'], s.ct) := by
  unfold mangle_entity_name flush_ct
  simp only
  rw [mangle_qualified_class_name_frame]
  cases mangle_qualified_class_name owner false ⟨[], []⟩ with
  | error f => rfl
  | ok r =>
    obtain ⟨n, s⟩ := r
    simp only [name_encoding]
    cases cpset_find st (name.takeWhile (fun c => c ≠ '.')) <;> simp

/-- The identifier of a method entity as the prefix through the entity name, the
return-type segment and the parameter block. -/
theorem mangle_entity_name_method {tail : scratch_tail} (st : List st_entry) (ct : List (List Char)) (owner : ir_type)
    (params ress : List ir_type) (name : List Char) (is_static : Bool) :
    mangle_entity_name tail st ct ⟨owner, .Method params ress, name, is_static⟩ =
      match after_entity_name st ⟨owner, .Method params ress, name, is_static⟩ with
      | .error f => .error f
      | .ok s0 =>
        match return_segment tail (name.takeWhile (fun c => c ≠ '.')) ress s0 with
        | .error f => .error f
        | .ok s1 =>
          match mangle_parameter_types tail params is_static s1 with
          | .error f => .error f
          | .ok s2 => .ok (s2.obst, s2.ct) := by
  unfold mangle_entity_name after_entity_name flush_ct
  simp only
  cases mangle_qualified_class_name owner false ⟨[], "_Z".toList⟩ with
  | error f => rfl
  | ok r =>
    obtain ⟨n, s⟩ := r
    simp only [name_encoding, return_segment]
    have hstate : ∀ x : List Char,
        (match cpset_find st (name.takeWhile (fun c => c ≠ '.')) with
          | none => s.obst ++ printf_d (name.takeWhile (fun c => c ≠ '.')).length
              ++ name.takeWhile (fun c => c ≠ '.')
          | some found_ste => s.obst ++ found_ste.mangled) ++ x
        = s.obst ++ (match cpset_find st (name.takeWhile (fun c => c ≠ '.')) with
          | some ste => ste.mangled
          | none => printf_d (name.takeWhile (fun c => c ≠ '.')).length
              ++ name.takeWhile (fun c => c ≠ '.')) ++ x := by
      intro x
      cases cpset_find st (name.takeWhile (fun c => c ≠ '.')) <;> simp
    by_cases hinit : name.takeWhile (fun c => c ≠ '.') = "<init>".toList
    · simp only [hinit, ne_eq, not_true_eq_false, if_false, if_true]
      rw [← hinit, hstate]
    · simp only [hinit, ne_eq, not_false_eq_true, if_true, if_false]
      cases ress with
      | nil =>
        simp only
        rw [hstate, ← hstate ['E']]
        simp
      | cons r rs =>
        cases rs with
        | nil =>
          simp only
          rw [hstate]
        | cons r' rs' => rfl

/-- The parameter block on a method type that has the receiver an instance entity
skips: it is the parameter segment. -/
theorem mangle_parameter_types_eq_segment {tail : scratch_tail} (params : List ir_type) (is_static : Bool) (s : mstate)
    (h : (if is_static then 0 else 1) ≤ params.length) :
    mangle_parameter_types tail params is_static s = parameter_segment tail params is_static s := by
  unfold mangle_parameter_types parameter_segment
  simp only
  rw [mangle_params_loop_eq _ _ _ _ (by omega)]
  cases hd : params.drop (if is_static then 0 else 1) with
  | nil =>
    have hlen := congrArg List.length hd
    simp only [List.length_drop, List.length_nil] at hlen
    rw [if_pos (by omega)]
  | cons t ts =>
    have hlen := congrArg List.length hd
    simp only [List.length_drop, List.length_cons] at hlen
    rw [if_neg (by omega)]

/-! ### The name-substitution registry -/

theorem string_cmp_hash (e1 e2 : st_entry) (h : string_cmp e1 e2 = true) :
    string_hash e1 = string_hash e2 := by
  simp only [string_cmp, decide_eq_true_eq] at h
  simp [string_hash, h]

theorem cpset_find_eq_none_iff (st : List st_entry) (name : List Char) :
    cpset_find st name = none ↔ ∀ e ∈ st, e.name ≠ name := by
  simp [cpset_find, List.find?_eq_none]

theorem mangle_add_name_substitution_present (st : List st_entry) (name mangled : List Char)
    (h : ∃ e ∈ st, e.name = name) :
    mangle_add_name_substitution st name mangled = .error .panic := by
  unfold mangle_add_name_substitution cpset_insert
  cases hf : st.find? (fun e => string_cmp e ⟨name, mangled⟩) with
  | some old => simp only [hf]
  | none =>
    exfalso
    obtain ⟨e, he, hname⟩ := h
    have := List.find?_eq_none.mp hf e he
    simp [string_cmp, hname] at this

theorem mangle_add_name_substitution_absent (st : List st_entry) (name mangled : List Char)
    (h : ∀ e ∈ st, e.name ≠ name) :
    mangle_add_name_substitution st name mangled = .ok (st ++ [⟨name, mangled⟩]) := by
  unfold mangle_add_name_substitution cpset_insert
  cases hf : st.find? (fun e => string_cmp e ⟨name, mangled⟩) with
  | some old =>
    exfalso
    have hmem := List.mem_of_find?_eq_some hf
    have hp := List.find?_some hf
    simp only [string_cmp, decide_eq_true_eq] at hp
    exact h old hmem hp
  | none => simp only [hf]

theorem mangle_add_name_substitution_ok (st st1 : List st_entry) (name mangled : List Char)
    (h : mangle_add_name_substitution st name mangled = .ok st1) :
    (∀ e ∈ st, e.name ≠ name) ∧ st1 = st ++ [⟨name, mangled⟩] := by
  by_cases hp : ∃ e ∈ st, e.name = name
  · rw [mangle_add_name_substitution_present st name mangled hp] at h
    exact Except.noConfusion h
  · have ha : ∀ e ∈ st, e.name ≠ name := fun e he hn => hp ⟨e, he, hn⟩
    rw [mangle_add_name_substitution_absent st name mangled ha] at h
    exact ⟨ha, (Except.ok.inj h).symm⟩

theorem registry_reachable_nodup (st : List st_entry) (h : registry_reachable st) :
    (st.map (fun e => e.name)).Nodup := by
  induction h with
  | init => simp [mangle_init_st]
  | add st st1 name mangled _ hadd ih =>
    obtain ⟨ha, hst1⟩ := mangle_add_name_substitution_ok st st1 name mangled hadd
    rw [hst1, List.map_append, List.nodup_append]
    refine ⟨ih, by simp, ?_⟩
    intro n hn hn'
    simp only [List.map_cons, List.map_nil, List.mem_singleton] at hn'
    obtain ⟨e, he, hen⟩ := List.mem_map.mp hn
    exact ha e he (by rw [hen, hn'])

theorem cpset_find_after_add (st st1 : List st_entry) (name mangled : List Char)
    (h : mangle_add_name_substitution st name mangled = .ok st1) (n : List Char)
    (e : st_entry) (hf : cpset_find st n = some e) : cpset_find st1 n = some e := by
  obtain ⟨_, hst1⟩ := mangle_add_name_substitution_ok st st1 name mangled h
  rw [hst1]
  unfold cpset_find at hf ⊢
  rw [List.find?_append, hf]
  rfl

/-! ### Tokens and lookups -/

theorem emit_substitution_tokens :
    ∀ i, i < 36 → 1 ≤ i →
      i - 1 < base36.length ∧ base36.get? (i - 1) = some (base36.getD (i - 1) 'S') ∧
      emit_substitution (i : Int) [] = ['S', base36.getD (i - 1) 'S', '_'] := by
  decide!

theorem emit_substitution_tokens_injective :
    ∀ i j : Fin 36,
      emit_substitution ((i.val : Nat) : Int) [] = emit_substitution ((j.val : Nat) : Int) [] →
      i = j := by
  decide!

theorem find_in_ct_first (ct : List (List Char)) (name : List Char) (h : name ∈ ct) :
    ∃ i : Nat, find_in_ct ct name = (i : Int) ∧ i < ct.length ∧ ct.get? i = some name ∧
      ∀ j, j < i → ct.get? j ≠ some name := by
  obtain ⟨pre, post, hct, hpre⟩ := exists_first_occurrence h
  refine ⟨pre.length, ?_, ?_, ?_, ?_⟩
  · rw [hct]
    exact find_in_ct_split post hpre
  · rw [hct]
    simp
  · rw [hct, List.get?_eq_getElem?, List.getElem?_append_right (le_refl _)]
    simp
  · intro j hj hget
    rw [hct, List.get?_eq_getElem?, List.getElem?_append_left hj] at hget
    exact hpre (List.getElem?_mem hget)

/-! ### The bare class is known, the pointer spelling is not -/

theorem mangle_type_class_known {tail : scratch_tail} (name : List Char) (s : mstate) (pre post : List (List Char))
    (hlen : name.length < 1023) (h36 : s.ct.length < 36) (hct : s.ct = pre ++ name :: post)
    (hfirst : name ∉ pre) (hp : 'P' :: name ∉ s.ct) :
    mangle_qualified_class_name (.Class name false) true s
        = .ok (false, ⟨s.ct ++ ['P' :: name], s.obst ++ 'P' :: back_reference pre.length⟩)
    ∧ mangle_type tail (.Pointer (.Class name false)) s
        = .ok ⟨s.ct ++ ['P' :: name], s.obst ++ 'P' :: back_reference pre.length⟩ := by
  have hmem : name ∈ s.ct := by
    rw [hct]
    simp
  have hidx : find_in_ct s.ct name = (pre.length : Int) := by
    rw [hct]
    exact find_in_ct_split post hfirst
  have hfp : ¬ (find_in_ct s.ct ('P' :: name) ≥ 0) :=
    fun hge => hp ((find_in_ct_nonneg_iff _ _).mp hge)
  have hf : find_in_ct s.ct name ≥ 0 := (find_in_ct_nonneg_iff _ _).mpr hmem
  have hlen' : name.length + 1 < 1024 := by omega
  have hq : mangle_qualified_class_name (.Class name false) true s
      = .ok (false, ⟨s.ct ++ ['P' :: name], s.obst ++ 'P' :: back_reference pre.length⟩) := by
    unfold mangle_qualified_class_name
    simp only [Bool.false_eq_true, if_false, true_and, if_true, MB_SIZE, hlen',
      not_true_eq_false, hfp, hf, insert_ct_eq_ok _ h36]
    rw [emit_substitution_eq, hidx]
    simp [back_reference]
  refine ⟨hq, ?_⟩
  rw [mangle_type_pointer_class, hq]
  rfl

/-- After a returning encoding of pointer-to-class from a table without the pointer
spelling (class not the global type, name not empty), the table holds the class name and
after it the pointer spelling, and no earlier entry equals either. -/
theorem mangle_type_pointer_registers_in_order {tail : scratch_tail} (name : List Char) (s s1 : mstate)
    (hne : name ≠ []) (hp : 'P' :: name ∉ s.ct)
    (h : mangle_type tail (.Pointer (.Class name false)) s = .ok s1) :
    ∃ pre mid : List (List Char),
      s1.ct = pre ++ name :: mid ++ [('P' :: name)] ∧ name ∉ pre ∧
      'P' :: name ∉ pre ++ name :: mid := by
  rw [mangle_type_pointer_class] at h
  cases hq : mangle_qualified_class_name (.Class name false) true s with
  | error e =>
    rw [hq] at h
    exact Except.noConfusion h
  | ok r =>
    obtain ⟨n, s0⟩ := r
    rw [hq] at h
    have hne' : 'P' :: name ≠ name := by
      intro he
      have := congrArg List.length he
      simp at this
    obtain ⟨_, hc⟩ := mangle_qualified_class_name_pointer_cases name s s0 n hq
    rcases hc with ⟨hmem, _, _⟩ | ⟨_, hmem, hn, hs0⟩ | ⟨_, hnc, hn, ext, out, hs0, hb, hcnd, _⟩
    · exact absurd hmem hp
    · subst hn
      simp only [Bool.false_eq_true, if_false, Except.ok.injEq] at h
      obtain ⟨pre, post, hct, hfirst⟩ := exists_first_occurrence hmem
      refine ⟨pre, post, ?_, hfirst, ?_⟩
      · rw [← h, hs0, hct]
      · rw [← hct]
        exact hp
    · subst hn
      simp only [if_true, Except.ok.injEq] at h
      obtain ⟨_, ext0, hext, hext0⟩ := hcnd hne
      refine ⟨s.ct ++ ext0, [], ?_, ?_, ?_⟩
      · rw [← h, hs0, hext]
        simp
      · intro hm
        rcases List.mem_append.mp hm with h' | h'
        · exact hnc h'
        · exact lt_irrefl _ (hext0 _ h')
      · intro hm
        simp only [List.append_assoc, List.mem_append, List.mem_cons, List.not_mem_nil,
          or_false] at hm
        rcases hm with h' | h' | h'
        · exact hp h'
        · have := hext0 _ h'
          simp only [List.length_cons] at this
          omega
        · exact hne' h'

/-! ### Lookups after a call -/

theorem find_in_ct_stable (ct ext : List (List Char)) :
    ∀ f ∈ ct, find_in_ct (ct ++ ext) f = find_in_ct ct f :=
  fun _ hf => find_in_ct_append_of_mem hf ext

theorem mangle_qualified_class_name_table (c : ir_type) (is_pointer n : Bool) (s s1 : mstate)
    (h : mangle_qualified_class_name c is_pointer s = .ok (n, s1)) :
    ∃ ext : List (List Char), s1.ct = s.ct ++ ext := by
  cases c with
  | Class name g =>
    obtain ⟨ext, _, hct, _, _⟩ := mangle_qualified_class_name_grows name g is_pointer s s1 n h
    exact ⟨ext, hct⟩
  | Primitive link => simp [mangle_qualified_class_name] at h
  | Pointer t => simp [mangle_qualified_class_name] at h
  | Other => simp [mangle_qualified_class_name] at h

/-! ### The end of the component walk -/

theorem mangle_type_array_free (tail : scratch_tail) (t : ir_type)
    (h : array_free t = true) (s : mstate) :
    mangle_type tail t s = mangle_type terminated t s := by
  cases t with
  | Primitive link => rfl
  | Class name g => rfl
  | Other => rfl
  | Pointer pt =>
    cases pt with
    | Class name g => rw [mangle_type_pointer_class, mangle_type_pointer_class]
    | Primitive link => simp [array_free] at h
    | Pointer t => simp [array_free] at h
    | Other => simp [array_free] at h

theorem mangle_type_list_array_free (tail : scratch_tail) (ts : List ir_type)
    (h : ts.all array_free = true) :
    ∀ s : mstate, mangle_type_list tail ts s = mangle_type_list terminated ts s := by
  induction ts with
  | nil =>
    intro s
    rfl
  | cons t ts ih =>
    intro s
    simp only [List.all_cons, Bool.and_eq_true] at h
    rw [mangle_type_list, mangle_type_list, mangle_type_array_free tail t h.1]
    cases mangle_type terminated t s with
    | error e => rfl
    | ok s1 => exact ih h.2 s1

theorem all_array_free_drop (ts : List ir_type) (n : Nat) (h : ts.all array_free = true) :
    (ts.drop n).all array_free = true := by
  rw [List.all_eq_true] at h ⊢
  exact fun t ht => h t (List.mem_of_mem_drop ht)

theorem mangle_parameter_types_array_free (tail : scratch_tail) (params : List ir_type)
    (is_static : Bool) (h : params.all array_free = true) (s : mstate) :
    mangle_parameter_types tail params is_static s
      = mangle_parameter_types terminated params is_static s := by
  unfold mangle_parameter_types
  simp only
  rw [mangle_params_loop_eq params _ _ _ (by omega),
    mangle_params_loop_eq params _ _ _ (by omega),
    mangle_type_list_array_free tail _ (all_array_free_drop params _ h)]

theorem parameter_segment_array_free (tail : scratch_tail) (params : List ir_type)
    (is_static : Bool) (h : params.all array_free = true) (s : mstate) :
    parameter_segment tail params is_static s
      = parameter_segment terminated params is_static s := by
  unfold parameter_segment
  have hd := all_array_free_drop params (if is_static then 0 else 1) h
  generalize params.drop (if is_static then 0 else 1) = declared at hd ⊢
  cases declared with
  | nil => rfl
  | cons t ts => exact mangle_type_list_array_free tail _ hd s

theorem return_segment_array_free (tail : scratch_tail) (plain : List Char)
    (ress : List ir_type) (h : ress.all array_free = true) (s : mstate) :
    return_segment tail plain ress s = return_segment terminated plain ress s := by
  unfold return_segment
  match ress, h with
  | [], _ => rfl
  | [res], h =>
    simp only [List.all_cons, List.all_nil, Bool.and_true] at h
    simp only [mangle_type_array_free tail res h]
  | _ :: _ :: _, _ => rfl

/-- The identifier of an entity without array types does not depend on the bytes behind
the scratch spellings. -/
theorem mangle_entity_name_array_free (tail : scratch_tail) (st : List st_entry)
    (ct : List (List Char)) (entity : ir_entity) (h : entity_array_free entity = true) :
    mangle_entity_name tail st ct entity = mangle_entity_name terminated st ct entity := by
  obtain ⟨owner, type, name, is_static⟩ := entity
  cases type with
  | Data t => rw [mangle_entity_name_data, mangle_entity_name_data]
  | Method params ress =>
    simp only [entity_array_free, Bool.and_eq_true] at h
    rw [mangle_entity_name_method, mangle_entity_name_method]
    simp only [return_segment_array_free tail _ ress h.2,
      mangle_parameter_types_array_free tail params is_static h.1]

/-! ### The sessions of the worked examples -/

/-- From the encoding of the element type to the return of the array encoder: `E` is
grown and the two spellings are registered. -/
theorem after_object_reaches_after_object_array :
    session_reaches after_object after_object_array := by
  have h1 : session_step after_object ⟨after_object.ct, after_object.obst ++ ['E']⟩ :=
    session_step.grow _ _
  have h2 : session_step ⟨after_object.ct, after_object.obst ++ ['E']⟩
      ⟨putDeclaredAnnotations_table.take 7, after_object.obst ++ ['E']⟩ :=
    session_step.insert ⟨after_object.ct, after_object.obst ++ ['E']⟩
      "JArray<Pjava/lang/Object>".toList _ (by decide!)
  have h3 : session_step ⟨putDeclaredAnnotations_table.take 7, after_object.obst ++ ['E']⟩
      ⟨putDeclaredAnnotations_table.take 8, after_object.obst ++ ['E']⟩ :=
    session_step.insert ⟨putDeclaredAnnotations_table.take 7, after_object.obst ++ ['E']⟩
      "PJArray<Pjava/lang/Object>".toList _ (by decide!)
  have e : (⟨putDeclaredAnnotations_table.take 8, after_object.obst ++ ['E']⟩ : mstate)
      = after_object_array := by decide!
  exact e ▸ ((Relation.ReflTransGen.single h1).tail h2).tail h3

theorem after_int_array_reaches_after_nested_array :
    session_reaches after_int_array after_nested_array := by
  have h1 : session_step after_int_array ⟨after_int_array.ct, after_int_array.obst ++ ['E']⟩ :=
    session_step.grow _ _
  have h2 : session_step ⟨after_int_array.ct, after_int_array.obst ++ ['E']⟩
      ⟨after_int_array.ct ++ ["JArray<JArray<i>>".toList], after_int_array.obst ++ ['E']⟩ :=
    session_step.insert ⟨after_int_array.ct, after_int_array.obst ++ ['E']⟩
      "JArray<JArray<i>>".toList _ (by decide!)
  have h3 : session_step
      ⟨after_int_array.ct ++ ["JArray<JArray<i>>".toList], after_int_array.obst ++ ['E']⟩
      ⟨after_int_array.ct ++ ["JArray<JArray<i>>".toList] ++ ["PJArray<JArray<i>>".toList],
        after_int_array.obst ++ ['E']⟩ :=
    session_step.insert
      ⟨after_int_array.ct ++ ["JArray<JArray<i>>".toList], after_int_array.obst ++ ['E']⟩
      "PJArray<JArray<i>>".toList _ (by decide!)
  have e : (⟨after_int_array.ct ++ ["JArray<JArray<i>>".toList]
        ++ ["PJArray<JArray<i>>".toList], after_int_array.obst ++ ['E']⟩ : mstate)
      = after_nested_array := by decide!
  exact e ▸ ((Relation.ReflTransGen.single h1).tail h2).tail h3

/-! ### The walk returns -/

/-- C1: the worked example of the compression-table comment, evaluated. With `int`
tagged `i` and an empty substitution registry, `putDeclaredAnnotations` of
`java/lang/ClassLoader` mangles to the documented symbol and leaves the documented table
(as a static entity and as an instance entity with any receiver type in front of the
parameters, whatever the table held before the call) in a run in which each scratch
spelling of `mangle_array_type` happens to be followed by a zero byte. The encoder never
terminates that spelling: with the stale byte `>` behind it, entries 6 and 7 of the
table are not the documented ones; and with that byte behind it in the later call only,
the last parameter is expanded again as `PS2_IS4_E` instead of `S6_` and the table gets
two entries more. -/
theorem putDeclaredAnnotations_evaluated :
    (∀ ct : List (List Char),
        mangle_entity_name terminated [] ct (putDeclaredAnnotations [] true)
          = .ok (putDeclaredAnnotations_symbol, putDeclaredAnnotations_table)
        ∧ ∀ receiver : ir_type,
          mangle_entity_name terminated [] ct (putDeclaredAnnotations [receiver] false)
            = .ok (putDeclaredAnnotations_symbol, putDeclaredAnnotations_table))
    ∧ mangle_entity_name (stale ">".toList) [] [] (putDeclaredAnnotations [] true)
        = .ok (putDeclaredAnnotations_symbol,
            ["java", "java/lang", "java/lang/ClassLoader", "JArray", "java/lang/Object",
             "Pjava/lang/Object", "JArray<Pjava/lang/Object>>", "PJArray<Pjava/lang/Object>>",
             "java/lang/Class", "Pjava/lang/Class"].map String.toList)
    ∧ mangle_entity_name (stale_after 3 ">".toList) [] [] (putDeclaredAnnotations [] true)
        = .ok ("_ZN4java4lang11ClassLoader22putDeclaredAnnotationsEJP6JArrayIPNS0_6ObjectEEPNS0_5ClassEiiiPS2_IS4_E".toList,
            putDeclaredAnnotations_table ++
              ["JArray<Pjava/lang/Object>>".toList, "PJArray<Pjava/lang/Object>>".toList]) := by
  refine ⟨fun ct => ?_, by decide!, by decide!⟩
  have h : mangle_entity_name terminated [] ct (putDeclaredAnnotations [] true)
      = .ok (putDeclaredAnnotations_symbol, putDeclaredAnnotations_table) := by
    have h0 : mangle_entity_name terminated [] [] (putDeclaredAnnotations [] true)
        = .ok (putDeclaredAnnotations_symbol, putDeclaredAnnotations_table) := by decide!
    rw [mangle_entity_name_flush]
    exact h0
  refine ⟨h, fun receiver => ?_⟩
  rw [← h]
  unfold putDeclaredAnnotations
  exact mangle_entity_name_skips_receiver [] ct _ receiver _ _ _

/-- C2: the identifier depends on bytes left in memory by earlier work. The table is
reset at the start of `mangle_entity_name`, so its previous content plays no role, and
for an entity without array types nothing else does. But `mangle_array_type` looks up
and registers its scratch spelling together with the stale bytes behind it: the static
method `A::h(int[][], int[])` is mangled to `_ZN1A1hEJvP6JArrayIPS0_IiEES2_` when zero
bytes lie behind the scratch spellings, and to `_ZN1A1hEJvP6JArrayIPS0_IiEEPS0_IiE` when
the scratch buffer of the last parameter still holds the end of the longer spelling
`PJArray<JArray<i>>` written there before. -/
theorem entity_name_depends_on_stale_bytes :
    (∀ (tail : scratch_tail) (st : List st_entry) (ct1 ct2 : List (List Char))
        (entity : ir_entity),
        mangle_entity_name tail st ct1 entity = mangle_entity_name tail st ct2 entity)
    ∧ (∀ (tail1 tail2 : scratch_tail) (st : List st_entry) (ct : List (List Char))
        (entity : ir_entity), entity_array_free entity = true →
        mangle_entity_name tail1 st ct entity = mangle_entity_name tail2 st ct entity)
    ∧ mangle_entity_name terminated [] [] method_with_nested_array
        = .ok ("_ZN1A1hEJvP6JArrayIPS0_IiEES2_".toList, after_nested_array.ct)
    ∧ mangle_entity_name (stale_after 2 "Array<i>>".toList) [] [] method_with_nested_array
        = .ok ("_ZN1A1hEJvP6JArrayIPS0_IiEEPS0_IiE".toList,
            after_nested_array.ct ++
              ["JArray<i>Array<i>>".toList, "PJArray<i>Array<i>>".toList])
    ∧ "_ZN1A1hEJvP6JArrayIPS0_IiEES2_".toList ≠ "_ZN1A1hEJvP6JArrayIPS0_IiEEPS0_IiE".toList := by
  refine ⟨fun tail st ct1 ct2 entity => ?_, fun tail1 tail2 st ct entity h => ?_,
    by decide!, by decide!, by decide!⟩
  · rw [mangle_entity_name_flush st ct1, mangle_entity_name_flush st ct2]
  · rw [mangle_entity_name_array_free tail1 st ct entity h,
      mangle_entity_name_array_free tail2 st ct entity h]

/-- C3: for a class other than the global type whose name is made of at most 36
non-empty slash-free components joined by single slashes and is shorter than 1023 bytes,
`mangle_vtable_name` returns `_ZTV`, `N`, each component as decimal length and bytes, and
`E` (so no back-reference token), and leaves the cumulative prefixes in the table. -/
theorem vtable_name_of_well_formed_class (ct : List (List Char)) (comps : List (List Char))
    (hwf : ∀ c ∈ comps, is_component c) (hn : comps.length ≤ 36)
    (hlen : (qualified_name comps).length < 1023) :
    mangle_vtable_name ct (.Class (qualified_name comps) false)
      = .ok ("_ZTV".toList ++ ['N'] ++ source_names comps ++ ['E'],
          cumulative_prefixes comps) := by
  rw [mangle_vtable_name_components ct comps hwf, if_pos ⟨hlen, hn⟩]
  simp

/-- Witness for C3: the class `java/lang/Object`. -/
theorem vtable_name_of_well_formed_class_witness :
    (∀ c ∈ ["java".toList, "lang".toList, "Object".toList], is_component c)
    ∧ mangle_vtable_name [] (.Class (qualified_name ["java".toList, "lang".toList, "Object".toList]) false)
      = .ok ("_ZTV".toList ++ ['N']
            ++ source_names ["java".toList, "lang".toList, "Object".toList] ++ ['E'],
          cumulative_prefixes ["java".toList, "lang".toList, "Object".toList]) :=
  ⟨by decide!, vtable_name_of_well_formed_class [] _ (by decide!) (by decide!) (by decide!)⟩

/-- C4 as stated fails: the classes `9abcdefghi` and `0/abcdefghi` have well-formed,
different names and the same vtable identifier `_ZTVN109abcdefghiE`. -/
theorem vtable_name_collision :
    (∀ c ∈ ["9abcdefghi".toList], is_component c)
    ∧ (∀ c ∈ ["0".toList, "abcdefghi".toList], is_component c)
    ∧ qualified_name ["9abcdefghi".toList] ≠ qualified_name ["0".toList, "abcdefghi".toList]
    ∧ (mangle_vtable_name [] (.Class (qualified_name ["9abcdefghi".toList]) false)).map Prod.fst
        = .ok "_ZTVN109abcdefghiE".toList
    ∧ (mangle_vtable_name [] (.Class (qualified_name ["0".toList, "abcdefghi".toList]) false)).map
          Prod.fst
        = .ok "_ZTVN109abcdefghiE".toList := by
  decide!

/-- C4 amended: two classes (neither the global type) whose names are made of non-empty
slash-free components joined by single slashes, none beginning with a decimal digit,
get different vtable identifiers whenever their names differ. -/
theorem vtable_names_distinct (comps1 comps2 : List (List Char))
    (hwf1 : ∀ c ∈ comps1, is_component c) (hwf2 : ∀ c ∈ comps2, is_component c)
    (hd1 : ∀ c ∈ comps1, no_leading_digit c = true)
    (hd2 : ∀ c ∈ comps2, no_leading_digit c = true)
    (hne : qualified_name comps1 ≠ qualified_name comps2)
    (ct1 ct2 : List (List Char)) (id1 id2 : List Char) (t1 t2 : List (List Char))
    (h1 : mangle_vtable_name ct1 (.Class (qualified_name comps1) false) = .ok (id1, t1))
    (h2 : mangle_vtable_name ct2 (.Class (qualified_name comps2) false) = .ok (id2, t2)) :
    id1 ≠ id2 := by
  rw [mangle_vtable_name_components ct1 comps1 hwf1] at h1
  rw [mangle_vtable_name_components ct2 comps2 hwf2] at h2
  split at h1
  · split at h2
    · simp only [Except.ok.injEq, Prod.mk.injEq] at h1 h2
      intro hid
      rw [← h1.1, ← h2.1] at hid
      have henc : source_names comps1 ++ ['E'] = source_names comps2 ++ ['E'] := by
        simpa using hid
      have := source_names_injective comps1 comps2
        (fun c hc => ⟨(hwf1 c hc).1, hd1 c hc⟩) (fun c hc => ⟨(hwf2 c hc).1, hd2 c hc⟩) henc
      exact hne (by rw [this])
    · exact Except.noConfusion h2
  · exact Except.noConfusion h1

/-- Witness for C4: the classes `java/lang/Object` and `java/lang/Class`. -/
theorem vtable_names_distinct_witness :
    qualified_name ["java".toList, "lang".toList, "Object".toList]
        ≠ qualified_name ["java".toList, "lang".toList, "Class".toList]
    ∧ "_ZTVN4java4lang6ObjectE".toList ≠ "_ZTVN4java4lang5ClassE".toList :=
  ⟨by decide!,
    vtable_names_distinct ["java".toList, "lang".toList, "Object".toList]
      ["java".toList, "lang".toList, "Class".toList] (by decide!) (by decide!) (by decide!)
      (by decide!) (by decide!) [] [] _ _
      ["java".toList, "java/lang".toList, "java/lang/Object".toList]
      ["java".toList, "java/lang".toList, "java/lang/Class".toList]
      (by decide!) (by decide!)⟩

/-- C5 as stated fails: it has no bound on the length of the class name. From the reset
table, encoding pointer-to-array of a primitive tagged with 1015 bytes (a zero byte
behind the scratch spelling) registers `PJArray<tag>` at index 2; that is the pointer
spelling of the class named `JArray<tag>` (1023 bytes), and encoding
pointer-to-that-class from that table then fails the assertion `slen+1 < MB_SIZE`
instead of emitting the back-reference. -/
theorem pointer_to_long_class_aborts :
    (mangle_type terminated (.Pointer (.Primitive (some long_tag))) ⟨[], []⟩).map
        (fun s => s.ct)
        = .ok ["JArray".toList, long_array_class_name, 'P' :: long_array_class_name]
    ∧ find_in_ct ["JArray".toList, long_array_class_name, 'P' :: long_array_class_name]
        ('P' :: long_array_class_name) = 2
    ∧ mangle_qualified_class_name (.Class long_array_class_name false) true
        ⟨["JArray".toList, long_array_class_name, 'P' :: long_array_class_name], []⟩
        = .error .assertion
    ∧ (∀ tail : scratch_tail,
        mangle_type tail (.Pointer (.Class long_array_class_name false))
          ⟨["JArray".toList, long_array_class_name, 'P' :: long_array_class_name], []⟩
          = .error .assertion) :=
  ⟨by decide!, by decide!, by decide!,
    fun tail => (mangle_type_array_free tail _ (by rfl) _).trans (by decide!)⟩

/-- C5 amended: for a class other than the global type whose name is shorter than 1023
bytes, and a table whose first entry equal to `P`+name is at index `pre.length`, encoding
pointer-to-class appends exactly the back-reference token for that index (no `P`, `N` or
`E`), reports that no composite was opened, and leaves the table unchanged. -/
theorem pointer_to_class_repeated (tail : scratch_tail) (name : List Char) (s : mstate) (pre post : List (List Char))
    (hlen : name.length < 1023) (hct : s.ct = pre ++ ('P' :: name) :: post)
    (hfirst : 'P' :: name ∉ pre) :
    mangle_qualified_class_name (.Class name false) true s
        = .ok (false, ⟨s.ct, s.obst ++ back_reference pre.length⟩)
    ∧ mangle_type tail (.Pointer (.Class name false)) s
        = .ok ⟨s.ct, s.obst ++ back_reference pre.length⟩ :=
  mangle_type_pointer_known name s pre post hlen hct hfirst

/-- Witness for C5: class `a` with the table `a`, `Pa`. -/
theorem pointer_to_class_repeated_witness :
    mangle_qualified_class_name (.Class "a".toList false) true
        ⟨["a".toList, "Pa".toList], "_ZN1a1fEJvPS_".toList⟩
        = .ok (false, ⟨["a".toList, "Pa".toList], "_ZN1a1fEJvPS_".toList ++ back_reference 1⟩)
    ∧ mangle_type terminated (.Pointer (.Class "a".toList false))
        ⟨["a".toList, "Pa".toList], "_ZN1a1fEJvPS_".toList⟩
        = .ok ⟨["a".toList, "Pa".toList], "_ZN1a1fEJvPS_".toList ++ back_reference 1⟩ :=
  pointer_to_class_repeated terminated "a".toList ⟨["a".toList, "Pa".toList], "_ZN1a1fEJvPS_".toList⟩
    ["a".toList] [] (by decide!) rfl (by decide!)

/-- C6: the lookup of a registered array spelling can miss. Whenever
`mangle_array_type` returns, its scratch string is in the table, and a later call in the
session whose scratch string is the same emits exactly the back-reference token of the
first index of that string and leaves the table unchanged. But the scratch string is the
spelling `PJArray<`…`>` followed by whatever bytes lie behind it, which the encoder
never cuts off. In the session of `A::h(int[][], int[])`, array of `int` is first
encoded inside the first parameter and registered as `PJArray<i>` at index 3; encoded
again for the second parameter it gives the token `S2_` when a zero byte lies behind the
scratch spelling, but with the end of the longer spelling `PJArray<JArray<i>>` left
there the lookup misses, the type is expanded again as `PS0_IiE`, and two more entries
are registered. -/
theorem array_lookup_misses_registered_spelling :
    (∀ (tail : scratch_tail) (T : ir_type) (s s1 : mstate),
        mangle_array_type tail T s = .ok s1 →
        ∃ (sp : List Char) (pre post : List (List Char)),
          mangle_type_without_substitition T [] = .ok sp ∧
          s1.ct = pre ++ (array_spelling sp ++ tail T s) :: post ∧
          array_spelling sp ++ tail T s ∉ pre ∧
          (∀ (tail2 : scratch_tail) (s2 : mstate), session_reaches s1 s2 →
            tail2 T s2 = tail T s →
            mangle_array_type tail2 T s2
              = .ok ⟨s2.ct, s2.obst ++ back_reference pre.length⟩))
    ∧ mangle_array_type terminated int_type before_int_array = .ok after_int_array
    ∧ find_in_ct after_int_array.ct (array_spelling ['i']) = 3
    ∧ session_reaches after_int_array after_nested_array
    ∧ mangle_array_type terminated int_type after_nested_array
        = .ok ⟨after_nested_array.ct, after_nested_array.obst ++ back_reference 3⟩
    ∧ back_reference 3 = "S2_".toList
    ∧ mangle_array_type (stale_after 2 "Array<i>>".toList) int_type after_nested_array
        = .ok ⟨after_nested_array.ct ++
              ["JArray<i>Array<i>>".toList, "PJArray<i>Array<i>>".toList],
            after_nested_array.obst ++ "PS0_IiE".toList⟩ :=
  ⟨fun _ T s s1 h => mangle_array_type_then_known T s s1 h, by decide!, by decide!,
    after_int_array_reaches_after_nested_array, by decide!, by decide!, by decide!⟩

/-- C7 as stated fails. In `a::f(a*, a*)` the class is the first table entry: the first
pointer-to-`a` is encoded as `PS_` and the second as `S0_`, three bytes each. In
`Pfoo::f(foo*, foo*)` the pointer spelling of `foo` is in the table before the first
occurrence: both occurrences are encoded as `S_`. For the class with the empty name,
absent from a table that holds another entry, the first occurrence is `PNE` and the
second `S0_`. And for the global type no occurrence emits anything. -/
theorem second_pointer_not_shorter :
    (∀ tail : scratch_tail,
        mangle_entity_name tail [] [] method_with_two_pointers_to_owner
          = .ok ("_ZN1a1fEJvPS_S0_".toList, ["a".toList, "Pa".toList]))
    ∧ (∀ tail : scratch_tail,
        mangle_type tail (.Pointer (class_named "a")) ⟨["a".toList], "_ZN1a1fEJv".toList⟩
          = .ok ⟨["a".toList, "Pa".toList], "_ZN1a1fEJv".toList ++ "PS_".toList⟩)
    ∧ (∀ tail : scratch_tail,
        mangle_type tail (.Pointer (class_named "a"))
            ⟨["a".toList, "Pa".toList], "_ZN1a1fEJvPS_".toList⟩
          = .ok ⟨["a".toList, "Pa".toList], "_ZN1a1fEJvPS_".toList ++ "S0_".toList⟩)
    ∧ ¬ ("S0_".toList.length < "PS_".toList.length)
    ∧ (∀ tail : scratch_tail,
        mangle_type tail (.Pointer (class_named "foo"))
            ⟨["Pfoo".toList], "_ZN4Pfoo1fEJv".toList⟩
          = .ok ⟨["Pfoo".toList], "_ZN4Pfoo1fEJv".toList ++ "S_".toList⟩)
    ∧ (∀ tail : scratch_tail,
        mangle_type tail (.Pointer (class_named "foo"))
            ⟨["Pfoo".toList], "_ZN4Pfoo1fEJvS_".toList⟩
          = .ok ⟨["Pfoo".toList], "_ZN4Pfoo1fEJvS_".toList ++ "S_".toList⟩)
    ∧ (∀ tail : scratch_tail,
        mangle_type tail (.Pointer (.Class [] false)) ⟨["a".toList], []⟩
          = .ok ⟨["a".toList, ['P']], "PNE".toList⟩)
    ∧ (∀ tail : scratch_tail,
        mangle_type tail (.Pointer (.Class [] false)) ⟨["a".toList, ['P']], "PNE".toList⟩
          = .ok ⟨["a".toList, ['P']], "PNE".toList ++ "S0_".toList⟩)
    ∧ (∀ tail : scratch_tail,
        mangle_type tail (.Pointer glob_type) ⟨["a".toList], "_ZN1a1fEJv".toList⟩
          = .ok ⟨["a".toList], "_ZN1a1fEJv".toList⟩) :=
  ⟨fun tail => (mangle_entity_name_array_free tail _ _ _ (by decide)).trans (by decide!),
    fun tail => (mangle_type_array_free tail _ (by rfl) _).trans (by decide!),
    fun tail => (mangle_type_array_free tail _ (by rfl) _).trans (by decide!),
    by decide!,
    fun tail => (mangle_type_array_free tail _ (by rfl) _).trans (by decide!),
    fun tail => (mangle_type_array_free tail _ (by rfl) _).trans (by decide!),
    fun tail => (mangle_type_array_free tail _ (by rfl) _).trans (by decide!),
    fun tail => (mangle_type_array_free tail _ (by rfl) _).trans (by decide!),
    fun tail => (mangle_type_array_free tail _ (by rfl) _).trans (by decide!)⟩

/-- C7 amended: for a class other than the global type, once pointer-to-class has been
encoded (the call returning), every later encoding of it in the same session, also
inside or after an array type, emits a single back-reference token, the one of the first
index of the pointer spelling, and leaves the table unchanged. The token is never longer
than the bytes the first occurrence emitted, and it is strictly shorter except in three
cases: the pointer spelling was in the table before the first occurrence; the class name
was the first table entry before the first occurrence; the class name is empty and was
absent from a table that was not empty. -/
theorem pointer_to_class_twice (tail : scratch_tail) (name : List Char) (s s1 : mstate)
    (h : mangle_type tail (.Pointer (.Class name false)) s = .ok s1) :
    ∃ (pre post : List (List Char)) (out1 : List Char),
      s1.ct = pre ++ ('P' :: name) :: post ∧ 'P' :: name ∉ pre ∧ s1.obst = s.obst ++ out1 ∧
      (∀ (tail2 : scratch_tail) (s2 : mstate), session_reaches s1 s2 →
        mangle_type tail2 (.Pointer (.Class name false)) s2
          = .ok ⟨s2.ct, s2.obst ++ back_reference pre.length⟩) ∧
      (back_reference pre.length).length ≤ out1.length ∧
      ((back_reference pre.length).length < out1.length ↔
        ('P' :: name ∉ s.ct ∧ find_in_ct s.ct name ≠ 0 ∧
          ¬ (name = [] ∧ name ∉ s.ct ∧ s.ct ≠ []))) :=
  mangle_type_pointer_then_known name s s1 h

/-- Witness for C7: in the session of `putDeclaredAnnotations`, pointer to
`java/lang/Object` is first encoded as the element type of the result type, from a table
that holds neither the class nor its pointer spelling; the array encoder then grows `E`
and registers its two spellings, and in the state it leaves a second occurrence is the
token `S4_`, shorter than the `PNS0_6ObjectE` of the first. -/
theorem pointer_to_class_twice_witness :
    (∃ (pre post : List (List Char)) (out1 : List Char),
      after_object.ct = pre ++ ('P' :: "java/lang/Object".toList) :: post ∧
      'P' :: "java/lang/Object".toList ∉ pre ∧
      after_object.obst = before_object.obst ++ out1 ∧
      (∀ (tail2 : scratch_tail) (s2 : mstate), session_reaches after_object s2 →
        mangle_type tail2 (.Pointer (.Class "java/lang/Object".toList false)) s2
          = .ok ⟨s2.ct, s2.obst ++ back_reference pre.length⟩) ∧
      (back_reference pre.length).length ≤ out1.length ∧
      ((back_reference pre.length).length < out1.length ↔
        ('P' :: "java/lang/Object".toList ∉ before_object.ct ∧
          find_in_ct before_object.ct "java/lang/Object".toList ≠ 0 ∧
          ¬ ("java/lang/Object".toList = [] ∧ "java/lang/Object".toList ∉ before_object.ct ∧
            before_object.ct ≠ []))))
    ∧ ('P' :: "java/lang/Object".toList ∉ before_object.ct ∧
        find_in_ct before_object.ct "java/lang/Object".toList ≠ 0 ∧
        ¬ ("java/lang/Object".toList = [] ∧ "java/lang/Object".toList ∉ before_object.ct ∧
          before_object.ct ≠ []))
    ∧ session_reaches after_object after_object_array
    ∧ mangle_type terminated (.Pointer (class_named "java/lang/Object")) after_object_array
        = .ok ⟨after_object_array.ct, after_object_array.obst ++ "S4_".toList⟩
    ∧ after_object.obst = before_object.obst ++ "PNS0_6ObjectE".toList
    ∧ "S4_".toList.length < "PNS0_6ObjectE".toList.length :=
  ⟨pointer_to_class_twice terminated "java/lang/Object".toList before_object after_object
      (by decide!),
    by decide!, after_object_reaches_after_object_array, by decide!, by decide!, by decide!⟩

/-- C8: for an entity whose declared type is not a method and whose name is `plain`
followed by nothing or by a `.` and a signature (`plain` without `.`), the identifier is
`_Z`, the owner's qualified-name encoding on a fresh table, the encoding of `plain`
(registered spelling verbatim, else decimal length and bytes) and `E`; so the text after
the first `.` does not change the identifier. -/
theorem field_entity_name (tail : scratch_tail) (st : List st_entry) (ct : List (List Char)) (owner t : ir_type)
    (is_static : Bool) (plain rest : List Char) (hplain : '.' ∉ plain)
    (hrest : rest = [] ∨ ∃ r, rest = '.' :: r) :
    mangle_entity_name tail st ct ⟨owner, .Data t, plain ++ rest, is_static⟩ =
      (match mangle_qualified_class_name owner false ⟨[], []⟩ with
        | .error f => .error f
        | .ok (_, s) => .ok ("_Z".toList ++ s.obst ++ name_encoding st plain ++ ['E'], s.ct))
    ∧ ∀ rest2 : List Char, (rest2 = [] ∨ ∃ r, rest2 = '.' :: r) →
        mangle_entity_name tail st ct ⟨owner, .Data t, plain ++ rest2, is_static⟩
          = mangle_entity_name tail st ct ⟨owner, .Data t, plain ++ rest, is_static⟩ := by
  have key : ∀ rest1 : List Char, (rest1 = [] ∨ ∃ r, rest1 = '.' :: r) →
      mangle_entity_name tail st ct ⟨owner, .Data t, plain ++ rest1, is_static⟩ =
        (match mangle_qualified_class_name owner false ⟨[], []⟩ with
          | .error f => .error f
          | .ok (_, s) =>
            .ok ("_Z".toList ++ s.obst ++ name_encoding st plain ++ ['E'], s.ct)) := by
    intro rest1 h1
    rw [mangle_entity_name_data, takeWhile_ne_char '.' plain rest1 hplain h1]
  exact ⟨key rest hrest, fun rest2 h2 => by rw [key rest2 h2, key rest hrest]⟩

/-- Witness for C8: the field `f.I` of class `A`, with a registry entry for `g`. -/
theorem field_entity_name_witness :
    mangle_entity_name terminated [⟨"g".toList, "4gggg".toList⟩] []
        ⟨class_named "A", .Data int_type, "f".toList ++ ".I".toList, false⟩ =
      (match mangle_qualified_class_name (class_named "A") false ⟨[], []⟩ with
        | .error f => .error f
        | .ok (_, s) =>
          .ok ("_Z".toList ++ s.obst
                ++ name_encoding [⟨"g".toList, "4gggg".toList⟩] "f".toList ++ ['E'], s.ct))
    ∧ ∀ rest2 : List Char, (rest2 = [] ∨ ∃ r, rest2 = '.' :: r) →
        mangle_entity_name terminated [⟨"g".toList, "4gggg".toList⟩] []
            ⟨class_named "A", .Data int_type, "f".toList ++ rest2, false⟩
          = mangle_entity_name terminated [⟨"g".toList, "4gggg".toList⟩] []
              ⟨class_named "A", .Data int_type, "f".toList ++ ".I".toList, false⟩ :=
  field_entity_name terminated [⟨"g".toList, "4gggg".toList⟩] [] (class_named "A") int_type false
    "f".toList ".I".toList (by decide!) (Or.inr ⟨"I".toList, rfl⟩)

/-- C9 as stated fails: for the instance method `A::f` whose method type has no parameter
at all, nothing remains after skipping the receiver, yet no `v` is emitted: the
identifier is `_ZN1A1fEJv`, ending with the return-type segment. -/
theorem receiverless_instance_method_has_no_parameter_segment :
    (∀ tail : scratch_tail,
        mangle_entity_name tail [] [] instance_method_without_receiver
          = .ok ("_ZN1A1fEJv".toList, ["A".toList]))
    ∧ (∀ tail : scratch_tail,
        mangle_parameter_types tail [] false ⟨["A".toList], "_ZN1A1fEJv".toList⟩
          = .ok ⟨["A".toList], "_ZN1A1fEJv".toList⟩)
    ∧ (∀ tail : scratch_tail,
        parameter_segment tail [] false ⟨["A".toList], "_ZN1A1fEJv".toList⟩
          = .ok ⟨["A".toList], "_ZN1A1fEJvv".toList⟩) :=
  ⟨fun tail => (mangle_entity_name_array_free tail _ _ _ (by decide)).trans (by decide!),
    fun tail => (mangle_parameter_types_array_free tail _ _ (by rfl) _).trans (by decide!),
    fun tail => (parameter_segment_array_free tail _ _ (by rfl) _).trans (by decide!)⟩

/-- C9 amended: for a method entity whose method type has at least the parameters that
are skipped (none for a static entity, the receiver for an instance entity), what follows
the return-type segment is the parameter segment: the parameters from index 0 (static) or
1 (instance) on, encoded in declared order on the running session state, or exactly `v`
when there is none. -/
theorem parameter_types_segment (tail : scratch_tail) (st : List st_entry) (ct : List (List Char)) (owner : ir_type)
    (params ress : List ir_type) (name : List Char) (is_static : Bool)
    (h : (if is_static then 0 else 1) ≤ params.length) :
    mangle_entity_name tail st ct ⟨owner, .Method params ress, name, is_static⟩ =
      match after_entity_name st ⟨owner, .Method params ress, name, is_static⟩ with
      | .error f => .error f
      | .ok s0 =>
        match return_segment tail (name.takeWhile (fun c => c ≠ '.')) ress s0 with
        | .error f => .error f
        | .ok s1 =>
          match parameter_segment tail params is_static s1 with
          | .error f => .error f
          | .ok s2 => .ok (s2.obst, s2.ct) := by
  rw [mangle_entity_name_method]
  simp only [mangle_parameter_types_eq_segment params is_static _ h]

/-- Witness for C9: the instance method `A::f` taking only its receiver. -/
theorem parameter_types_segment_witness :
    mangle_entity_name terminated [] [] instance_method_of_receiver = .ok ("_ZN1A1fEJvv".toList, ["A".toList])
    ∧ mangle_entity_name terminated [] [] ⟨class_named "A", .Method [.Pointer (class_named "A")] [],
          "f".toList, false⟩ =
      match after_entity_name [] ⟨class_named "A", .Method [.Pointer (class_named "A")] [],
          "f".toList, false⟩ with
      | .error f => .error f
      | .ok s0 =>
        match return_segment terminated ("f".toList.takeWhile (fun c => c ≠ '.')) [] s0 with
        | .error f => .error f
        | .ok s1 =>
          match parameter_segment terminated [.Pointer (class_named "A")] false s1 with
          | .error f => .error f
          | .ok s2 => .ok (s2.obst, s2.ct) :=
  ⟨by decide!, parameter_types_segment terminated [] [] (class_named "A") [.Pointer (class_named "A")] []
    "f".toList false (by decide)⟩

/-- C10: for a method entity, between the `E` closing the entity name and the parameter
block the output holds the return-type segment: nothing when the plain name (the name
cut before its first `.`) is `<init>`, otherwise `J` followed by `v` when the method has
no result or by the encoding of its single result type (the mangler aborts on more than
one result). -/
theorem return_type_segment (tail : scratch_tail) (st : List st_entry) (ct : List (List Char)) (owner : ir_type)
    (params ress : List ir_type) (name : List Char) (is_static : Bool) :
    mangle_entity_name tail st ct ⟨owner, .Method params ress, name, is_static⟩ =
      match after_entity_name st ⟨owner, .Method params ress, name, is_static⟩ with
      | .error f => .error f
      | .ok s0 =>
        match return_segment tail (name.takeWhile (fun c => c ≠ '.')) ress s0 with
        | .error f => .error f
        | .ok s1 =>
          match mangle_parameter_types tail params is_static s1 with
          | .error f => .error f
          | .ok s2 => .ok (s2.obst, s2.ct) :=
  mangle_entity_name_method st ct owner params ress name is_static

/-- C11: `mangle_add_name_substitution(name, mangled)` panics whenever the registry
already holds an entry for `name` and otherwise adds the pair; so in every registry
state reachable from `mangle_init` no two entries have the same name (each plain name
has at most one spelling), and a returning call leaves every earlier lookup result as it
was (no spelling is overridden). -/
theorem registry_uniqueness :
    (∀ (st : List st_entry) (name mangled : List Char), (∃ e ∈ st, e.name = name) →
        mangle_add_name_substitution st name mangled = .error .panic)
    ∧ (∀ (st : List st_entry) (name mangled : List Char), (∀ e ∈ st, e.name ≠ name) →
        mangle_add_name_substitution st name mangled = .ok (st ++ [⟨name, mangled⟩]))
    ∧ (∀ st : List st_entry, registry_reachable st →
        (st.map (fun e => e.name)).Nodup ∧
        ∀ e1 ∈ st, ∀ e2 ∈ st, e1.name = e2.name → e1.mangled = e2.mangled)
    ∧ (∀ (st st1 : List st_entry) (name mangled : List Char), registry_reachable st →
        mangle_add_name_substitution st name mangled = .ok st1 →
        ∀ (n : List Char) (e : st_entry), cpset_find st n = some e → cpset_find st1 n = some e) := by
  refine ⟨mangle_add_name_substitution_present, mangle_add_name_substitution_absent, ?_, ?_⟩
  · intro st hst
    have hnd := registry_reachable_nodup st hst
    refine ⟨hnd, fun e1 h1 e2 h2 hname => ?_⟩
    rw [List.inj_on_of_nodup_map hnd h1 h2 hname]
  · intro st st1 name mangled _ hadd n e hf
    exact cpset_find_after_add st st1 name mangled hadd n e hf

/-- C12: `insert_ct` appends when the table holds fewer than 36 entries and fails its
assertion when it holds 36; and for a class (not the global type) whose name is made of
non-empty slash-free components joined by single slashes and is shorter than 1023 bytes,
`mangle_vtable_name` returns when there are at most 36 components and aborts when there
are more. -/
theorem table_capacity :
    (∀ (ct : List (List Char)) (name : List Char), ct.length < 36 →
        insert_ct ct name = .ok (ct ++ [name]))
    ∧ (∀ (ct : List (List Char)) (name : List Char), ct.length = 36 →
        insert_ct ct name = .error .assertion)
    ∧ (∀ (ct : List (List Char)) (comps : List (List Char)),
        (∀ c ∈ comps, is_component c) → (qualified_name comps).length < 1023 →
        (comps.length ≤ 36 →
          ∃ r, mangle_vtable_name ct (.Class (qualified_name comps) false) = .ok r)
        ∧ (36 < comps.length →
          mangle_vtable_name ct (.Class (qualified_name comps) false) = .error .assertion)) := by
  refine ⟨fun ct name h => insert_ct_eq_ok name h,
    fun ct name h => insert_ct_eq_error name (by omega), ?_⟩
  intro ct comps hwf hlen
  rw [mangle_vtable_name_components ct comps hwf]
  constructor
  · intro hn
    rw [if_pos ⟨hlen, hn⟩]
    exact ⟨_, rfl⟩
  · intro hn
    rw [if_neg (fun h => absurd h.2 (by omega))]

/-- C13: `emit_substitution(0)` appends exactly `S_`; for every index from 1 to 35 the
lookup `base36[i-1]` is inside `0123456789ABCDEFGHIJKLMNOPQRSTUVWXYZ` and exactly `S`,
that character and `_` are appended; and two indices up to 35 with the same token are
equal. -/
theorem back_reference_token_format :
    base36 = "0123456789ABCDEFGHIJKLMNOPQRSTUVWXYZ".toList
    ∧ (∀ obst : List Char, emit_substitution 0 obst = obst ++ "S_".toList)
    ∧ (∀ i : Nat, 1 ≤ i → i ≤ 35 →
        i - 1 < base36.length ∧
        ∃ c, base36.get? (i - 1) = some c ∧
          ∀ obst : List Char, emit_substitution (i : Int) obst = obst ++ ['S', c, '_'])
    ∧ (∀ i j : Nat, i ≤ 35 → j ≤ 35 →
        emit_substitution (i : Int) [] = emit_substitution (j : Int) [] → i = j) := by
  refine ⟨rfl, ?_, ?_, ?_⟩
  · intro obst
    rw [emit_substitution_eq]
    rfl
  · intro i h1 h35
    obtain ⟨hb, hget, htok⟩ := emit_substitution_tokens i (by omega) h1
    refine ⟨hb, _, hget, fun obst => ?_⟩
    rw [emit_substitution_eq, htok]
  · intro i j hi hj h
    have := emit_substitution_tokens_injective ⟨i, by omega⟩ ⟨j, by omega⟩ h
    exact Fin.mk.inj this

/-- C14: `find_in_ct` returns -1 exactly when no stored entry equals the fragment;
otherwise it returns the smallest index below the entry count whose entry equals the
fragment; and after `flush_ct` it returns -1 for every fragment. -/
theorem find_in_ct_first_index (ct : List (List Char)) (name : List Char) :
    (find_in_ct ct name = -1 ↔ name ∉ ct)
    ∧ (name ∈ ct →
        ∃ i : Nat, find_in_ct ct name = (i : Int) ∧ i < ct.length ∧ ct.get? i = some name ∧
          ∀ j, j < i → ct.get? j ≠ some name)
    ∧ find_in_ct (flush_ct ct) name = -1 :=
  ⟨find_in_ct_eq_neg_one_iff ct name, find_in_ct_first ct name, rfl⟩

/-- C15 as stated fails: it has no bound on the length of the class name. From the reset
table, encoding pointer-to-class for a class named by 1022 bytes `x…` registers that name
and then `Px…`; the class named `Px…` (1023 bytes) is then in the table at index 1 and its
pointer spelling `PPx…` is not, the table has two entries, and encoding pointer-to-it
fails the assertion `slen+1 < MB_SIZE`. -/
theorem pointer_to_long_known_class_aborts :
    (∀ tail : scratch_tail,
        (mangle_type tail (.Pointer (.Class long_class_name false)) ⟨[], []⟩).map
            (fun s => s.ct)
          = .ok [long_class_name, 'P' :: long_class_name])
    ∧ find_in_ct [long_class_name, 'P' :: long_class_name] ('P' :: long_class_name) = 1
    ∧ find_in_ct [long_class_name, 'P' :: long_class_name] ('P' :: 'P' :: long_class_name) = -1
    ∧ mangle_qualified_class_name (.Class ('P' :: long_class_name) false) true
        ⟨[long_class_name, 'P' :: long_class_name], []⟩ = .error .assertion
    ∧ (∀ tail : scratch_tail,
        mangle_type tail (.Pointer (.Class ('P' :: long_class_name) false))
          ⟨[long_class_name, 'P' :: long_class_name], []⟩ = .error .assertion) :=
  ⟨fun tail => by
      rw [mangle_type_array_free tail _ (by rfl)]
      decide!,
    by decide!, by decide!, by decide!,
    fun tail => (mangle_type_array_free tail _ (by rfl) _).trans (by decide!)⟩

/-- C15 amended: for a class other than the global type whose name is shorter than 1023
bytes, and a table with fewer than 36 entries in which the name is present with first
index `pre.length` and `P`+name is absent, encoding pointer-to-class appends exactly `P`
and the back-reference token for that index, opens no composite, and leaves the old
table with `P`+name appended as its last entry. -/
theorem pointer_to_known_class (tail : scratch_tail) (name : List Char) (s : mstate) (pre post : List (List Char))
    (hlen : name.length < 1023) (h36 : s.ct.length < 36) (hct : s.ct = pre ++ name :: post)
    (hfirst : name ∉ pre) (hp : 'P' :: name ∉ s.ct) :
    mangle_qualified_class_name (.Class name false) true s
        = .ok (false, ⟨s.ct ++ ['P' :: name], s.obst ++ 'P' :: back_reference pre.length⟩)
    ∧ mangle_type tail (.Pointer (.Class name false)) s
        = .ok ⟨s.ct ++ ['P' :: name], s.obst ++ 'P' :: back_reference pre.length⟩ :=
  mangle_type_class_known name s pre post hlen h36 hct hfirst hp

/-- Witness for C15: pointer to class `a` encoded after the owner `a`. -/
theorem pointer_to_known_class_witness :
    mangle_qualified_class_name (.Class "a".toList false) true ⟨["a".toList], "_ZN1a1fEJv".toList⟩
        = .ok (false, ⟨["a".toList] ++ ['P' :: "a".toList],
            "_ZN1a1fEJv".toList ++ 'P' :: back_reference 0⟩)
    ∧ mangle_type terminated (.Pointer (.Class "a".toList false)) ⟨["a".toList], "_ZN1a1fEJv".toList⟩
        = .ok ⟨["a".toList] ++ ['P' :: "a".toList],
            "_ZN1a1fEJv".toList ++ 'P' :: back_reference 0⟩ :=
  pointer_to_known_class terminated "a".toList ⟨["a".toList], "_ZN1a1fEJv".toList⟩ [] []
    (by decide!) (by decide!) rfl (by decide!) (by decide!)

/-- C16 as stated fails. In `Pfoo::f(foo*)` the owner registers `Pfoo`, which is also
the pointer spelling of class `foo`, so pointer-to-`foo` is encoded as the back-reference
`S_` and `foo` never enters the table. And for the global type pointer-to-class
registers nothing at all. -/
theorem pointer_spelling_without_class_entry :
    (∀ tail : scratch_tail,
        mangle_entity_name tail [] [] method_of_Pfoo_taking_foo
          = .ok ("_ZN4Pfoo1fEJvS_".toList, ["Pfoo".toList]))
    ∧ (∀ tail : scratch_tail,
        mangle_type tail (.Pointer (class_named "foo"))
            ⟨["Pfoo".toList], "_ZN4Pfoo1fEJv".toList⟩
          = .ok ⟨["Pfoo".toList], "_ZN4Pfoo1fEJvS_".toList⟩)
    ∧ "foo".toList ∉ ["Pfoo".toList]
    ∧ (∀ tail : scratch_tail, mangle_type tail (.Pointer glob_type) ⟨[], []⟩ = .ok ⟨[], []⟩) :=
  ⟨fun tail => (mangle_entity_name_array_free tail _ _ _ (by decide)).trans (by decide!),
    fun tail => (mangle_type_array_free tail _ (by rfl) _).trans (by decide!),
    by decide!,
    fun tail => (mangle_type_array_free tail _ (by rfl) _).trans (by decide!)⟩

/-- C16 amended: whenever pointer-to-class (class not the global type, name not empty)
is encoded from a table that does not hold the pointer spelling yet, then from that
point on in the session the table contains both the class name and `P`+name, and the
first index of the class name is smaller than the first index of `P`+name. -/
theorem class_entry_precedes_pointer_entry (tail : scratch_tail) (name : List Char) (s s1 : mstate)
    (hne : name ≠ []) (hp : 'P' :: name ∉ s.ct)
    (h : mangle_type tail (.Pointer (.Class name false)) s = .ok s1) :
    ∀ s2, session_reaches s1 s2 →
      ∃ pre mid post : List (List Char),
        s2.ct = pre ++ name :: mid ++ ('P' :: name) :: post ∧ name ∉ pre ∧
        'P' :: name ∉ pre ++ name :: mid := by
  intro s2 hreach
  obtain ⟨pre, mid, hct, h1, h2⟩ := mangle_type_pointer_registers_in_order name s s1 hne hp h
  obtain ⟨ext, hext⟩ := session_reaches_table s1 s2 hreach
  exact ⟨pre, mid, ext, by rw [hext, hct]; simp, h1, h2⟩

/-- Witness for C16: in the session of `putDeclaredAnnotations`, pointer to
`java/lang/Object` is encoded as the element type of the result type; the array encoder
then grows `E` and registers its two spellings, and in the table it leaves
`java/lang/Object` (index 4) still precedes `Pjava/lang/Object` (index 5). -/
theorem class_entry_precedes_pointer_entry_witness :
    (∃ pre mid post : List (List Char),
      after_object_array.ct = pre ++ "java/lang/Object".toList :: mid
          ++ ('P' :: "java/lang/Object".toList) :: post
      ∧ "java/lang/Object".toList ∉ pre
      ∧ 'P' :: "java/lang/Object".toList ∉ pre ++ "java/lang/Object".toList :: mid)
    ∧ find_in_ct after_object_array.ct "java/lang/Object".toList = 4
    ∧ find_in_ct after_object_array.ct ('P' :: "java/lang/Object".toList) = 5 :=
  ⟨class_entry_precedes_pointer_entry terminated "java/lang/Object".toList before_object
      after_object (by decide!) (by decide!) (by decide!) after_object_array
      after_object_reaches_after_object_array,
    by decide!, by decide!⟩

/-- C17: whenever `mangle_qualified_class_name`, `mangle_array_type` or `mangle_type`
returns, the table is the old table followed by zero or more new entries, and every
fragment that was in the table before the call is found at the same index after it. -/
theorem table_append_only :
    (∀ (c : ir_type) (is_pointer n : Bool) (s s1 : mstate),
        mangle_qualified_class_name c is_pointer s = .ok (n, s1) →
        ∃ ext, s1.ct = s.ct ++ ext ∧ ∀ f ∈ s.ct, find_in_ct s1.ct f = find_in_ct s.ct f)
    ∧ (∀ (tail : scratch_tail) (t : ir_type) (s s1 : mstate),
        mangle_array_type tail t s = .ok s1 →
        ∃ ext, s1.ct = s.ct ++ ext ∧ ∀ f ∈ s.ct, find_in_ct s1.ct f = find_in_ct s.ct f)
    ∧ (∀ (tail : scratch_tail) (t : ir_type) (s s1 : mstate),
        mangle_type tail t s = .ok s1 →
        ∃ ext, s1.ct = s.ct ++ ext ∧ ∀ f ∈ s.ct, find_in_ct s1.ct f = find_in_ct s.ct f) := by
  refine ⟨?_, ?_, ?_⟩
  · intro c is_pointer n s s1 h
    obtain ⟨ext, hct⟩ := mangle_qualified_class_name_table c is_pointer n s s1 h
    exact ⟨ext, hct, by rw [hct]; exact find_in_ct_stable s.ct ext⟩
  · intro tail t s s1 h
    obtain ⟨ext, _, hct, _⟩ := mangle_array_type_grows t s s1 h
    exact ⟨ext, hct, by rw [hct]; exact find_in_ct_stable s.ct ext⟩
  · intro tail t s s1 h
    obtain ⟨ext, _, hct, _⟩ := mangle_type_grows t s s1 h
    exact ⟨ext, hct, by rw [hct]; exact find_in_ct_stable s.ct ext⟩

/-- C18: what each caller of the qualified-name encoder does with the flag it returns.
`mangle_type` appends `E` exactly when the encoder reported an opened `N`, and
`mangle_vtable_name` returns only when it did and then appends `E`; `mangle_entity_name`
drops the flag and always appends `E` after the entity name: for an entity owned by the
global type the encoder reports no `N` and emits nothing, yet the identifier is
`_Z`, the name and `E` (`_Z4mainEJvv` for `main`), an `E` that closes no `N`. -/
theorem entity_name_closes_unopened_composite :
    (∀ (tail : scratch_tail) (name : List Char) (g : Bool) (s : mstate),
        mangle_type tail (.Pointer (.Class name g)) s =
          match mangle_qualified_class_name (.Class name g) true s with
          | .error e => .error e
          | .ok (emitted_N, s1) =>
            .ok ⟨s1.ct, s1.obst ++ (if emitted_N then ['E'] else [])⟩)
    ∧ (∀ (ct : List (List Char)) (clazz : ir_type),
        mangle_vtable_name ct clazz =
          match mangle_qualified_class_name clazz false ⟨[], "_ZTV".toList⟩ with
          | .error e => .error e
          | .ok (emitted_N, s1) =>
            if emitted_N then .ok (s1.obst ++ ['E'], s1.ct) else .error .assertion)
    ∧ mangle_qualified_class_name glob_type false ⟨[], "_Z".toList⟩
        = .ok (false, ⟨[], "_Z".toList⟩)
    ∧ (∀ tail : scratch_tail,
        mangle_entity_name tail [] [] global_main = .ok ("_Z4mainEJvv".toList, []))
    ∧ 'N' ∉ "_Z4mainEJvv".toList
    ∧ (∀ (tail : scratch_tail) (st : List st_entry) (ct : List (List Char))
        (gname : List Char) (t : ir_type) (name : List Char) (is_static : Bool),
        mangle_entity_name tail st ct ⟨.Class gname true, .Data t, name, is_static⟩
          = .ok ("_Z".toList ++ name_encoding st (name.takeWhile (fun c => c ≠ '.')) ++ ['E'],
              [])) := by
  refine ⟨?_, ?_, by decide!,
    fun tail => (mangle_entity_name_array_free tail _ _ _ (by decide)).trans (by decide!),
    by decide!, ?_⟩
  · intro tail name g s
    rw [mangle_type_pointer_class]
    cases mangle_qualified_class_name (.Class name g) true s with
    | error e => rfl
    | ok r =>
      obtain ⟨n, s1⟩ := r
      cases n <;> simp
  · intro ct clazz
    rfl
  · intro tail st ct gname t name is_static
    rw [mangle_entity_name_data]
    simp [mangle_qualified_class_name]

/-- C19: when the encoder builds a new composite name with the pointer flag set (class
name shorter than 1023 bytes, neither the name nor `P`+name in the table), nothing the
component walk registers equals `P`+name, so the lookup asserted to be -1 before the
pointer spelling is registered is -1, and the call continues with that registration. -/
theorem pointer_spelling_assertion_holds (name : List Char) (s : mstate) (r : Int)
    (s1 : mstate) (hlen : name.length < 1023) (hp : 'P' :: name ∉ s.ct) (hc : name ∉ s.ct)
    (hw : walk_components name name.length name (-1) ⟨s.ct, s.obst ++ ['P'] ++ ['N']⟩
      = .ok (r, s1)) :
    (∃ ext : List (List Char), s1.ct = s.ct ++ ext ∧ ∀ e ∈ ext, e ≠ 'P' :: name)
    ∧ find_in_ct s1.ct ('P' :: name) = -1
    ∧ mangle_qualified_class_name (.Class name false) true s =
        match insert_ct s1.ct ('P' :: name) with
        | .error e => .error e
        | .ok ct => .ok (true, ⟨ct, s1.obst⟩) := by
  rcases walk_components_spec name name.length name [] (-1)
      ⟨s.ct, s.obst ++ ['P'] ++ ['N']⟩ rfl le_rfl le_rfl with
    herr | ⟨r', s', ext, out, heq, hct, _, _, hb, _⟩
  · rw [herr] at hw
    exact Except.noConfusion hw
  · rw [heq] at hw
    simp only [Except.ok.injEq, Prod.mk.injEq] at hw
    obtain ⟨_, hs⟩ := hw
    subst hs
    have hext : ∀ e ∈ ext, e ≠ 'P' :: name := by
      intro e he heq'
      have := hb e he
      rw [heq'] at this
      simp only [List.length_cons] at this
      omega
    have hnot : 'P' :: name ∉ s'.ct := by
      rw [hct]
      intro hm
      rcases List.mem_append.mp hm with h' | h'
      · exact hp h'
      · exact hext _ h' rfl
    have hfind := find_in_ct_of_not_mem hnot
    refine ⟨⟨ext, hct, hext⟩, hfind, ?_⟩
    have hfp : ¬ (find_in_ct s.ct ('P' :: name) ≥ 0) :=
      fun hge => hp ((find_in_ct_nonneg_iff _ _).mp hge)
    have hfc : ¬ (find_in_ct s.ct name ≥ 0) :=
      fun hge => hc ((find_in_ct_nonneg_iff _ _).mp hge)
    have hlen' : name.length + 1 < 1024 := by omega
    unfold mangle_qualified_class_name
    simp only [Bool.false_eq_true, if_false, true_and, if_true, MB_SIZE, hlen',
      not_true_eq_false, hfp, hfc, heq, hfind]

/-- Witness for C19: pointer to `java/lang/Object` encoded after the owner
`java/lang/ClassLoader`. -/
theorem pointer_spelling_assertion_holds_witness :
    (∃ ext : List (List Char),
        putDeclaredAnnotations_table.take 3 ++ ["java/lang/Object".toList]
          = putDeclaredAnnotations_table.take 3 ++ ext
        ∧ ∀ e ∈ ext, e ≠ 'P' :: "java/lang/Object".toList)
    ∧ find_in_ct (putDeclaredAnnotations_table.take 3 ++ ["java/lang/Object".toList])
        ('P' :: "java/lang/Object".toList) = -1
    ∧ mangle_qualified_class_name (.Class "java/lang/Object".toList false) true
        ⟨putDeclaredAnnotations_table.take 3, []⟩ =
        match insert_ct (putDeclaredAnnotations_table.take 3 ++ ["java/lang/Object".toList])
            ('P' :: "java/lang/Object".toList) with
        | .error e => .error e
        | .ok ct => .ok (true, ⟨ct, "PNS0_6Object".toList⟩) :=
  pointer_spelling_assertion_holds "java/lang/Object".toList
    ⟨putDeclaredAnnotations_table.take 3, []⟩ (-1)
    ⟨putDeclaredAnnotations_table.take 3 ++ ["java/lang/Object".toList], "PNS0_6Object".toList⟩
    (by decide!) (by decide!) (by decide!) (by decide!)

/-- Witness for C11: registering `<clinit>` twice panics, registering it in the registry
`mangle_init` leaves adds it. -/
theorem registry_uniqueness_witness :
    mangle_add_name_substitution [⟨"<clinit>".toList, "18__U3c_clinit__U3e_".toList⟩]
        "<clinit>".toList "other".toList = .error .panic
    ∧ mangle_add_name_substitution mangle_init_st "<clinit>".toList
        "18__U3c_clinit__U3e_".toList
        = .ok (mangle_init_st ++ [⟨"<clinit>".toList, "18__U3c_clinit__U3e_".toList⟩]) :=
  ⟨registry_uniqueness.1 _ _ _ ⟨_, List.mem_singleton.mpr rfl, rfl⟩,
    registry_uniqueness.2.1 _ _ _ (fun _ he => absurd he (List.not_mem_nil _))⟩

/-- Witness for C12: a class of 36 components `a` returns, one of 37 aborts. -/
theorem table_capacity_witness :
    (∃ r, mangle_vtable_name [] (.Class (qualified_name (List.replicate 36 ['a'])) false)
        = .ok r)
    ∧ mangle_vtable_name [] (.Class (qualified_name (List.replicate 37 ['a'])) false)
        = .error .assertion :=
  ⟨(table_capacity.2.2 [] (List.replicate 36 ['a']) (by decide!) (by decide!)).1 (by decide!),
    (table_capacity.2.2 [] (List.replicate 37 ['a']) (by decide!) (by decide!)).2 (by decide!)⟩

/-- Witness for C14: `JArray` in the table left by `putDeclaredAnnotations`. -/
theorem find_in_ct_first_index_witness :
    ∃ i : Nat, find_in_ct putDeclaredAnnotations_table "JArray".toList = (i : Int) ∧
      i < putDeclaredAnnotations_table.length ∧
      putDeclaredAnnotations_table.get? i = some "JArray".toList ∧
      ∀ j, j < i → putDeclaredAnnotations_table.get? j ≠ some "JArray".toList :=
  (find_in_ct_first_index putDeclaredAnnotations_table "JArray".toList).2.1 (by decide!)

/-- Witness for C17: pointer to `java/lang/Object` encoded after the owner
`java/lang/ClassLoader`. -/
theorem table_append_only_witness :
    ∃ ext, putDeclaredAnnotations_table.take 3
          ++ ["java/lang/Object".toList, "Pjava/lang/Object".toList]
        = putDeclaredAnnotations_table.take 3 ++ ext
      ∧ ∀ f ∈ putDeclaredAnnotations_table.take 3,
          find_in_ct (putDeclaredAnnotations_table.take 3
              ++ ["java/lang/Object".toList, "Pjava/lang/Object".toList]) f
            = find_in_ct (putDeclaredAnnotations_table.take 3) f :=
  table_append_only.2.2 terminated (.Pointer (class_named "java/lang/Object"))
    ⟨putDeclaredAnnotations_table.take 3, []⟩
    ⟨putDeclaredAnnotations_table.take 3
        ++ ["java/lang/Object".toList, "Pjava/lang/Object".toList], "PNS0_6ObjectE".toList⟩
    (by decide!)

end Mangle
